import Mathlib

/-!
# Verification of the ecstl entity-component-system core

This file gives a shallow embedding, in Lean 4, of the parts of the
`ecstl` ECS library that the specification claims talk about, and proves
(or refutes) each claim against that embedding.

Conventions of the embedding:
* `Entity` ids and `ComponentTypeID`s are 64-bit integers in the source;
  their arithmetic never matters for the claims below, so both are
  embedded as `Nat` (with explicit `% 2 ^ 64` wherever the source relies
  on machine-width wraparound, e.g. in the hash mixer).
* Pools backed by the indexed flat map are embedded as association lists
  `List (Entity × V)` in insertion order; the auxiliary hash index of the
  flat map is embedded separately (section `OpenHashMap`) and, where a
  pool operation only needs the index as a position lookup, the lookup is
  expressed as a positional search of the key vector, which is exactly
  what the index caches.
* Fallible operations return `Option` / `Bool` results mirroring the
  source's iterators-vs-end and return codes.
-/

set_option autoImplicit false

namespace Ecstl

open scoped List

/-- Entity identifier (`Entity::_id`, a `std::uint64_t`). -/
abbrev Entity := Nat

/-- `ComponentTypeID::_value`, a `uint64_t`. -/
abbrev CompId := Nat

/-! ## paired_iterator (src/ecstl/paired_iterator.hpp, src/ecstl/utils/paired_iterator.hpp)

A `paired_iterator<T, U>` holds one iterator into the key vector and one
into the value vector of an `IndexedFlatMap`.  Vector iterators compare
by position, so each component iterator is embedded as the position it
points at. -/

/-- A paired iterator: position of the key iterator (`_t_it`) and of the
value iterator (`_u_it`). -/
structure PairedIterator where
  t_it : Nat
  u_it : Nat
deriving DecidableEq, Repr

/-- `paired_iterator::operator==`:
`_t_it == other._t_it || _u_it == other._u_it` (both copies of the
header have the same operator). -/
def PairedIterator.eq (a b : PairedIterator) : Bool :=
  a.t_it == b.t_it || a.u_it == b.u_it

/-- A paired iterator produced by `IndexedFlatMap::build_iterator(pos)`
advances both component iterators in lockstep from position `pos`, so
its two positions always agree. -/
def PairedIterator.aligned (a : PairedIterator) : Prop :=
  a.t_it = a.u_it

/-! ## AnyRef / ConstAnyRef (src/ecstl/any_ref.hpp)

A type-erased reference is a raw pointer together with the fingerprint
(`class_hash<T>`) of the type it was built from.  The pointee is
embedded directly as the held value (`none` for the null reference of a
default-constructed `AnyRef`); a Lean-level type `V` stands for the
universe of storable objects, and a fingerprint `f : Nat` stands for the
template argument `T` of `get` / `get_if` / `holds_alternative`. -/

/-- `AnyRef`: `_ref` (pointer, `none` = null) and `_type` fingerprint. -/
structure AnyRef (V : Type) where
  ref : Option V
  type : Nat
deriving DecidableEq, Repr

/-- `ConstAnyRef`: same layout with a const pointer. -/
structure ConstAnyRef (V : Type) where
  ref : Option V
  type : Nat
deriving DecidableEq, Repr

/-- `ConstAnyRef(const AnyRef &)` conversion constructor. -/
def ConstAnyRef.ofAnyRef {V : Type} (a : AnyRef V) : ConstAnyRef V :=
  ⟨a.ref, a.type⟩

/-- `holds_alternative<T>(AnyRef)`: fingerprint comparison. -/
def AnyRef.holdsAlternative {V : Type} (f : Nat) (a : AnyRef V) : Bool :=
  a.type == f

/-- `get<T>(AnyRef)`: throws `std::bad_cast` (the `.error` branch) when
the fingerprint does not match, otherwise dereferences the pointer.
Dereferencing the null pointer cannot be observed in the embedding, so a
default value stands for that undefined behaviour. -/
def AnyRef.get {V : Type} [Inhabited V] (f : Nat) (a : AnyRef V) : Except Unit V :=
  if a.holdsAlternative f then
    match a.ref with
    | some v => .ok v
    | none => .ok default
  else .error ()

/-- `AnyRef::get_if<T>()`: empty `OptionalRef` on fingerprint mismatch. -/
def AnyRef.getIf {V : Type} [Inhabited V] (f : Nat) (a : AnyRef V) : Option V :=
  if a.holdsAlternative f then
    match a.get f with
    | .ok v => some v
    | .error _ => none
  else none

/-- `holds_alternative<T>(ConstAnyRef)`. -/
def ConstAnyRef.holdsAlternative {V : Type} (f : Nat) (a : ConstAnyRef V) : Bool :=
  a.type == f

/-- `get<T>(ConstAnyRef)`. -/
def ConstAnyRef.get {V : Type} [Inhabited V] (f : Nat) (a : ConstAnyRef V) : Except Unit V :=
  if a.holdsAlternative f then
    match a.ref with
    | some v => .ok v
    | none => .ok default
  else .error ()

/-- `ConstAnyRef::get_if<T>()`. -/
def ConstAnyRef.getIf {V : Type} [Inhabited V] (f : Nat) (a : ConstAnyRef V) : Option V :=
  if a.holdsAlternative f then
    match a.get f with
    | .ok v => some v
    | .error _ => none
  else none

/-! ## Typed pool over the indexed flat map

`GenericRegistry::set` (src/ecstl/registry.hpp:166-172) operates on the
pool through `try_emplace`; the pool's backing store keeps keys in
insertion order with an index giving the position of a key, so the
lookup performed by `try_emplace` is a search for the (first) position
holding the key. -/

/-- Position of key `e` in the pool's key vector: `some i` mirrors the
index lookup hitting position `i`, `none` mirrors `find` returning the
end iterator. -/
def poolFindIdx {V : Type} (l : List (Entity × V)) (e : Entity) : Option Nat :=
  l.findIdx? (fun p => p.1 == e)

/-- `IndexedFlatMap::try_emplace` on a typed pool: returns the new pool,
the position of the key's slot, and whether an insertion happened. -/
def poolTryEmplace {V : Type} (l : List (Entity × V)) (e : Entity) (v : V) :
    List (Entity × V) × Nat × Bool :=
  match poolFindIdx l e with
  | some i => (l, i, false)
  | none => (l ++ [(e, v)], l.length, true)

/-- `GenericRegistry::set<T>(e, variant_id, T &&data)`:
`try_emplace`, then on `!r.second` assign `r.first->second = move(data)`;
returns (a reference to) `r.first->second`.  The result is the new pool
contents paired with the value the returned reference denotes. -/
def registrySet {V : Type} [Inhabited V] (l : List (Entity × V)) (e : Entity) (v : V) :
    List (Entity × V) × V :=
  let r := poolTryEmplace l e v
  if r.2.2 then
    (r.1, ((r.1.getD r.2.1 (e, v)).2))
  else
    let l2 := r.1.set r.2.1 (e, v)
    (l2, ((l2.getD r.2.1 (e, v)).2))

/-- The `r.second` flag of the `try_emplace` inside `set`: `true` when
the component was newly created for `e`. -/
def registrySetCreated {V : Type} (l : List (Entity × V)) (e : Entity) (v : V) : Bool :=
  (poolTryEmplace l e v).2.2

/-! ## Registry `contains` (src/ecstl/registry.hpp:521-551, 709-721)

The pool directory `_storage` maps `Key{type_id, variant_id}` to a pool;
for the membership queries only the set of entities of each pool
matters, so the directory is embedded as an association list from keys
to entity lists. -/

/-- The registry's pool directory, `Key -> pool`, pools reduced to their
entity sets. -/
abbrev RegDir := List ((CompId × CompId) × List Entity)

/-- `_storage.find(Key{t, v})`. -/
def storageFind (st : RegDir) (k : CompId × CompId) : Option (List Entity) :=
  match st.find? (fun p => p.1 == k) with
  | some p => some p.2
  | none => none

/-- Single-component `contains<Component>(e, subid)`:
`get<Component>(e, subid)` converted to `bool` — the pool exists and
holds `e`. -/
def contains1 (st : RegDir) (e : Entity) (t v : CompId) : Bool :=
  match storageFind st (t, v) with
  | some pool => pool.contains e
  | none => false

/-- `GenericRegistry::contains_impl<T, Components...>` (lines 709-721):
when the trailing pack is empty it returns `true` immediately — the
head type of a singleton list is never tested. -/
def containsImpl (st : RegDir) (e : Entity) : List CompId → List CompId → Bool
  | [], _ => true
  | [_], _ => true
  | t :: rest, [] => contains1 st e t 0 && containsImpl st e rest []
  | t :: rest, v :: vs => contains1 st e t v && containsImpl st e rest vs

/-- Variadic `contains<Components...>(e, variants)` (lines 532-540):
one component goes through the single-component overload with the first
variant (or 0), two or more go through `contains_impl`. -/
def containsMulti (st : RegDir) (e : Entity) (types : List CompId)
    (variants : List CompId) : Bool :=
  match types with
  | [t] => contains1 st e t (variants.headD 0)
  | _ => containsImpl st e types variants

/-- What the claim (and the source's own doc comment) states `has<T…>`
computes: `e` possesses every listed component, each under its variant,
missing trailing variants defaulting to 0. -/
def allPresent (st : RegDir) (e : Entity) (types : List CompId)
    (variants : List CompId) : Bool :=
  (List.range types.length).all fun i =>
    contains1 st e (types.getD i 0) (variants.getD i 0)

/-- Concrete pool directory for the `contains` counterexample: a single
pool for key `(10, 0)` containing entity `5`; no pool for type `20`. -/
def demoDir : RegDir := [((10, 0), [5])]

/-! ## Binary component pool and the C shim's `ecs_store`
(src/libecs/ecs.cpp:73-91, 273-286)

The `IndexedFlatMap<K, BinaryComponentView>` specialization keeps a key
vector, a flat byte vector of `size * _component_size` bytes and the
open-map index from key to position; `_component_size` is fixed by the
first insert. -/

/-- The binary pool state: fixed per-element size, key vector, flat byte
vector (`_values`); bytes are embedded as `Nat`. -/
structure BinPool where
  componentSize : Nat
  keys : List Entity
  values : List Nat
deriving DecidableEq, Repr

/-- `_index.find(key)`: the open-map index caches the position of each
key in the key vector, so the lookup is the positional search. -/
def binFindIdx (p : BinPool) (e : Entity) : Option Nat :=
  p.keys.findIdx? (· == e)

/-- `IndexedFlatMap<K, BinaryComponentView>::try_emplace` (ecs.cpp:75-91):
existing key → `(iterator_to_existing, false)`; first insert fixes
`_component_size`; a later insert with a mismatching payload size
returns `(end(), false)` (the `none` iterator) without mutation. -/
def binTryEmplace (p : BinPool) (e : Entity) (payload : List Nat) :
    BinPool × Option Nat × Bool :=
  match binFindIdx p e with
  | some i => (p, some i, false)
  | none =>
    if p.values.isEmpty then
      (⟨payload.length, p.keys ++ [e], p.values ++ payload⟩, some p.keys.length, true)
    else if payload.length ≠ p.componentSize then
      (p, none, false)
    else
      (⟨p.componentSize, p.keys ++ [e], p.values ++ payload⟩, some p.keys.length, true)

/-- `ins.first == pool->end()` for the binary pool's paired iterator:
`paired_iterator::operator==` is an OR of the key-pointer comparison
(`pos == size`) and the byte-iterator comparison (equal byte offsets
`pos * step == size * step`, with equal steps). -/
def binIterEqEnd (p : BinPool) (pos : Nat) : Bool :=
  pos == p.keys.length || pos * p.componentSize == p.keys.length * p.componentSize

/-- `std::copy(val.begin(), val.end(), ins.first->second.begin())`:
writes `payload.length` bytes at byte offset `off`.  (The source does
not bounds-check this copy; the inputs used below keep it in bounds.) -/
def writeBytes (values : List Nat) (off : Nat) (payload : List Nat) : List Nat :=
  values.take off ++ payload ++ values.drop (off + payload.length)

/-- `ecs_store` (ecs.cpp:273-286): `try_emplace`; on `!ins.second`,
return `-1` if the iterator equals `end()`, otherwise invoke the
deleter on the old slot and copy the new payload over it, returning 0.
(Deleter invocations are bookkeeping outside the pool state; C5 covers
drop accounting.) -/
def ecsStore (p : BinPool) (e : Entity) (payload : List Nat) : Int × BinPool :=
  let r := binTryEmplace p e payload
  if r.2.2 then (0, r.1)
  else
    match r.2.1 with
    | none => (-1, r.1)
    | some pos =>
      if binIterEqEnd p pos then (-1, r.1)
      else (0, { r.1 with values := writeBytes r.1.values (pos * p.componentSize) payload })

/-- Binary pool reached by `ecs_store(reg, 1, x, 4-byte payload)` on a
fresh pool: the first insert fixed the element size at 4. -/
def binDemo : BinPool := ⟨4, [1], [1, 2, 3, 4]⟩

/-! ## `group_entities` (src/ecstl/registry.hpp:578-620)

The pool of the chosen `(Component, variant)` key is iterated in
storage order, so it is embedded as its `(entity, value)` list; the
reorganisation builds a fresh pool by repeated `emplace`
(= `try_emplace`, which silently skips keys already present). -/

/-- Pair ordering by entity id, as used by `std::sort(sortMap)` /
`std::lower_bound` (entities compare by `_id`). -/
def pairLe {V : Type} (p q : Entity × V) : Bool := p.1 ≤ q.1

/-- Building `new_pool` by a sequence of `emplace` calls: an element
whose key is already present is skipped (`try_emplace` semantics). -/
def buildPool {V : Type} (items : List (Entity × V)) : List (Entity × V) :=
  items.foldl
    (fun acc p => if (acc.find? fun q => q.1 == p.1).isSome then acc else acc ++ [p]) []

/-- `GenericRegistry::group_entities<Component>(variant, predicate)` on
the pool contents `l`:
* `st` — `std::find_if(b, e, pred)`; `none` means return `false`
  (embedded as result `none`);
* `sortMap` — the entities of the pred-satisfying elements from `st`
  on, sorted ascending (`std::sort`);
* the new pool receives the prefix before `st`, then for each entity of
  `sortMap` the element found by `ct->find(e)`, then the remaining
  post-`st` elements whose entity is not in `sortMap` (the source
  decides membership by `std::lower_bound` on the sorted vector). -/
def groupEntities {V : Type} [Inhabited V] (l : List (Entity × V))
    (pred : Entity → V → Bool) : Option (List (Entity × V)) :=
  match l.findIdx? (fun p => pred p.1 p.2) with
  | none => none
  | some st =>
    let post := l.drop st
    let sortMap := ((post.filter fun p => pred p.1 p.2).map Prod.fst).mergeSort (· ≤ ·)
    let middle := sortMap.map fun e => (l.find? (fun q => q.1 == e)).getD (e, default)
    let tail := post.filter fun p => !(sortMap.contains p.1)
    some (buildPool (l.take st ++ middle ++ tail))

/-- Key-wise strict ordering on pool elements (used to state uniqueness
of the sorted block). -/
def pairLt {V : Type} (p q : Entity × V) : Prop := p.1 < q.1

instance pairLt_antisymm {V : Type} : IsAntisymm (Entity × V) pairLt :=
  ⟨fun _ _ h1 h2 => absurd (Nat.lt_trans h1 h2) (Nat.lt_irrefl _)⟩

/-! ## Drop hook accounting (C5)

The droppable-value machinery (`sparse_map.hpp` with `is_droppable` and
the pool's `drop` invocations) is code of this repository that is not
under src/ — only its tests (`constexpr_tests.cpp`) and its callers
(`ecstl.hpp`, `registry.hpp`) are.  The *drop events* below are
therefore modelled from the spec; the pool mutations themselves follow
the flat-map code that is under src/ (swap-remove erase,
`try_emplace`-based `set`) and `groupEntities` above.  Drops are
recorded in an event list; `V` is the droppable value type. -/

/-- `IndexedFlatMap::erase` structure (indexed_flat_map.hpp:63-76): move
the trailing element into the erased slot, then pop the back. -/
def swapRemove {V : Type} [Inhabited V] (l : List (Entity × V)) (i : Nat) :
    List (Entity × V) :=
  if i + 1 < l.length then
    (l.set i (l.getD (l.length - 1) default)).dropLast
  else
    l.dropLast

/-- Modelled from the spec: "Drop is invoked exactly once per value on
removal from a pool" — `erase(entity)` / `remove` / `destroy_entity`
remove the entry (swap-remove) and drop the removed value. -/
def dropErase {V : Type} [Inhabited V] (l : List (Entity × V)) (e : Entity) :
    List (Entity × V) × List V :=
  match poolFindIdx l e with
  | none => (l, [])
  | some i => (swapRemove l i, [(l.getD i default).2])

/-- Modelled from the spec: "if the component exists, the previous
value is dropped and the new one move-assigned" (`set` / `emplace` over
an existing key); creating a component drops nothing. -/
def dropSet {V : Type} [Inhabited V] (l : List (Entity × V)) (e : Entity) (v : V) :
    List (Entity × V) × List V :=
  match poolFindIdx l e with
  | none => (l ++ [(e, v)], [])
  | some i => (l.set i (e, v), [(l.getD i default).2])

/-- Modelled from the spec: grouping rebuilds the pool by moving values
and clears the old pool "without invoking drop (ownership moved)" —
no drop events. -/
def dropGroup {V : Type} [Inhabited V] (l : List (Entity × V))
    (pred : Entity → V → Bool) : List (Entity × V) × List V :=
  match groupEntities l pred with
  | none => (l, [])
  | some r => (r, [])

/-- Modelled from the spec: pool destruction (and `remove_all_of`, and
registry destruction destroying every pool) drops each stored value
exactly once. -/
def destroyDrops {V : Type} (l : List (Entity × V)) : List V :=
  l.map Prod.snd

/-- One operation of a pool history touching droppable values. -/
inductive DropOp (V : Type) where
  | setOp (e : Entity) (v : V)
  | eraseOp (e : Entity)
  | groupOp (pred : Entity → V → Bool)

/-- One step of the pool history: apply the operation and append the
drop events it emits. -/
def dropStep {V : Type} [Inhabited V] (s : List (Entity × V) × List V) :
    DropOp V → List (Entity × V) × List V
  | .setOp e v => ((dropSet s.1 e v).1, s.2 ++ (dropSet s.1 e v).2)
  | .eraseOp e => ((dropErase s.1 e).1, s.2 ++ (dropErase s.1 e).2)
  | .groupOp pred => ((dropGroup s.1 pred).1, s.2 ++ (dropGroup s.1 pred).2)

/-- Run a pool history from the empty pool, collecting drop events. -/
def runDrop {V : Type} [Inhabited V] (ops : List (DropOp V)) :
    List (Entity × V) × List V :=
  ops.foldl dropStep ([], [])

/-- Every value handed to the pool by `set`/`emplace` over a history. -/
def insertedVals {V : Type} : List (DropOp V) → List V
  | [] => []
  | .setOp _ v :: rest => v :: insertedVals rest
  | .eraseOp _ :: rest => insertedVals rest
  | .groupOp _ :: rest => insertedVals rest

/-! ## OpenHashMap (src/ecstl/utils/open_hash_map.hpp)

`_items` (the key/value union array) and `_state` (per-slot state) are
fused into one list of slots; the extra past-the-end `occupied` state
entry is only an iterator stop sentinel and is modelled by the explicit
bound of the iteration scans.  Keys are `Nat` (the map is used with
`Entity` and `size_t` keys); the hash functor `_hasher` is a parameter
`h : Nat → Nat`.  `std::size_t` is 64 bits, so the mixer reduces
`% 2 ^ 64`. -/

/-- One slot: `_state[i]` plus, when occupied, `_items[i].key_value`. -/
inductive Slot (V : Type) where
  | empty
  | tombstone
  | occupied (k : Nat) (v : V)
deriving DecidableEq, Repr

/-- The map: slot array (length = `_items.size()`, the capacity) and the
`_size` counter. -/
structure OpenHashMap (V : Type) where
  slots : List (Slot V)
  sizeF : Nat
deriving DecidableEq, Repr

/-- `map_key`'s 64-bit mixing (the `sizeof(size_t) == 8` branch):
`hash ^= (hash >> 7) ^ (hash << 11); hash *= 11400714819323198485`. -/
def mix64 (h0 : Nat) : Nat :=
  let h1 := h0 % 2 ^ 64
  let h2 := (Nat.xor h1 (Nat.xor (h1 >>> 7) ((h1 <<< 11) % 2 ^ 64))) % 2 ^ 64
  h2 * 11400714819323198485 % 2 ^ 64

/-- `map_key(k)`: mixed hash modulo capacity. -/
def mapKey (h : Nat → Nat) (cap : Nat) (k : Nat) : Nat :=
  mix64 (h k) % cap

/-- `find_index`'s probe loop from `start`: examine `(start + j) % cap`
for `j = 0, 1, …`; tombstones are skipped, the first `empty` stops the
probe, an occupied slot with an equal key is a hit, and the do-while
gives up after one full wrap (`j` reaches the capacity). -/
def probeFind {V : Type} (slots : List (Slot V)) (start k : Nat) (j : Nat) :
    Option Nat :=
  if j < slots.length then
    match slots.getD ((start + j) % slots.length) .empty with
    | .empty => none
    | .tombstone => probeFind slots start k (j + 1)
    | .occupied k' _ =>
      if k' = k then some ((start + j) % slots.length)
      else probeFind slots start k (j + 1)
  else none
termination_by slots.length - j

/-- `OpenHashMap::find_index` (open_hash_map.hpp:346-365). -/
def findIndex {V : Type} (h : Nat → Nat) (m : OpenHashMap V) (k : Nat) : Option Nat :=
  if m.slots.length = 0 then none
  else probeFind m.slots (mapKey h m.slots.length k) k 0

/-- `try_emplace`'s probe loop (open_hash_map.hpp:190-220): remember the
first tombstone on the path; on the first `empty`, construct at the
remembered tombstone (or at the empty slot itself); report an existing
equal key without mutation; a full wrap is the `return {end(), false}`
marked "unreachable" in the source (`none` iterator, no mutation). -/
def probeInsert {V : Type} (slots : List (Slot V)) (start k : Nat) (v : V)
    (tomb : Option Nat) (j : Nat) : List (Slot V) × Option Nat × Bool :=
  if j < slots.length then
    match slots.getD ((start + j) % slots.length) .empty with
    | .empty =>
      let t := tomb.getD ((start + j) % slots.length)
      (slots.set t (.occupied k v), some t, true)
    | .tombstone =>
      probeInsert slots start k v (some (tomb.getD ((start + j) % slots.length))) (j + 1)
    | .occupied k' _ =>
      if k' = k then (slots, some ((start + j) % slots.length), false)
      else probeInsert slots start k v tomb (j + 1)
  else (slots, none, false)
termination_by slots.length - j

/-- The probe-and-construct part of `try_emplace` (everything after the
growth check), bumping `_size` on insertion. -/
def tryEmplaceRaw {V : Type} (h : Nat → Nat) (m : OpenHashMap V) (k : Nat) (v : V) :
    OpenHashMap V × Option Nat × Bool :=
  let r := probeInsert m.slots (mapKey h m.slots.length k) k v none 0
  (⟨r.1, if r.2.2 then m.sizeF + 1 else m.sizeF⟩, r.2.1, r.2.2)

/-- `prime_sizes` (open_hash_map.hpp:307-314). -/
def prime_sizes : List Nat :=
  [5, 11, 23, 47, 97, 197, 397, 797, 1597, 3203, 6421, 12853, 25717,
   51437, 102877, 205759, 411527, 823117, 1646237, 3292489, 6584983,
   13169977, 26339969, 52679969, 105359939, 210719881, 421439783, 842879579]

/-- `next_capacity`: first prime above the current capacity, else
`current * 2 + 1`. -/
def next_capacity (current : Nat) : Nat :=
  match prime_sizes.find? (fun p => current < p) with
  | some p => p
  | none => current * 2 + 1

mutual
/-- `OpenHashMap::try_emplace`: grow when `capacity * 3 / 5 ≤ size`,
then probe-and-construct.  `expand` re-inserts through the same
`try_emplace`, so the recursion is bounded by an explicit `fuel`
(each growth step more than doubles the capacity, so a nested growth
during a rehash never actually triggers; any fuel ≥ 1 reproduces the
source behaviour and `tryEmplace` below passes a dominating fuel). -/
def tryEmplaceFuel {V : Type} (h : Nat → Nat) :
    Nat → OpenHashMap V → Nat → V → OpenHashMap V × Option Nat × Bool
  | 0, m, k, v => tryEmplaceRaw h m k v
  | fuel + 1, m, k, v =>
    tryEmplaceRaw h
      (if m.slots.length * 3 / 5 ≤ m.sizeF then expandFuel h fuel m else m) k v

/-- `OpenHashMap::expand` (open_hash_map.hpp:337-344): build a fresh map
at the next capacity and move every element over in iteration order
(iterators skip non-occupied slots) with `try_emplace`. -/
def expandFuel {V : Type} (h : Nat → Nat) (fuel : Nat) (m : OpenHashMap V) :
    OpenHashMap V :=
  m.slots.foldl
    (fun acc s =>
      match s with
      | .occupied k v => (tryEmplaceFuel h fuel acc k v).1
      | _ => acc)
    ⟨List.replicate (next_capacity m.slots.length) .empty, 0⟩
end

/-- The re-insertion step of `expand`, as folded over the old slot
array (named for the proofs; definitionally the fold body above). -/
def expandStep {V : Type} (h : Nat → Nat) (fuel : Nat)
    (acc : OpenHashMap V) (s : Slot V) : OpenHashMap V :=
  match s with
  | .occupied k v => (tryEmplaceFuel h fuel acc k v).1
  | _ => acc

/-- `try_emplace` with fuel dominating any reachable growth depth. -/
def tryEmplace {V : Type} (h : Nat → Nat) (m : OpenHashMap V) (k : Nat) (v : V) :
    OpenHashMap V × Option Nat × Bool :=
  tryEmplaceFuel h (m.sizeF + m.slots.length + 2) m k v

/-- `erase(key)` via `find_index` + `erase_index`
(open_hash_map.hpp:274-279, 367-372): occupied → tombstone, `--_size`. -/
def eraseKey {V : Type} (h : Nat → Nat) (m : OpenHashMap V) (k : Nat) :
    OpenHashMap V :=
  match findIndex h m k with
  | none => m
  | some i => ⟨m.slots.set i .tombstone, m.sizeF - 1⟩

/-- `OpenHashMap::clear` (open_hash_map.hpp:281-290): `std::destroy_at`
each occupied `key_value` and zero `_size`.  The destroy calls end the
object lifetimes but write neither the `_state` array nor the slot
storage, so the slot array is observably unchanged. -/
def clearMap {V : Type} (m : OpenHashMap V) : OpenHashMap V :=
  ⟨m.slots, 0⟩

/-- `OpenHashMap::begin` (open_hash_map.hpp:227-231): scan forward from
0 past non-occupied states. -/
def beginScan {V : Type} (slots : List (Slot V)) (idx : Nat) : Nat :=
  if idx < slots.length then
    match slots.getD idx .empty with
    | .occupied _ _ => idx
    | _ => beginScan slots (idx + 1)
  else idx
termination_by slots.length - idx

/-- `begin()`'s offset. -/
def beginIdx {V : Type} (m : OpenHashMap V) : Nat := beginScan m.slots 0

/-- `end()`'s offset: `_items.size()`. -/
def endIdx {V : Type} (m : OpenHashMap V) : Nat := m.slots.length

/-- Keys of the occupied slots, in slot order. -/
def occKeys {V : Type} (slots : List (Slot V)) : List Nat :=
  slots.filterMap fun s =>
    match s with
    | .occupied k _ => some k
    | _ => none

/-- No tombstones (holds for freshly rehashed tables). -/
def tombFree {V : Type} (slots : List (Slot V)) : Prop :=
  ∀ s ∈ slots, s ≠ Slot.tombstone

/-- Offset of slot `i` on the probe path starting at `start`
(the unique `j < cap` with `(start + j) % cap = i`). -/
def probeOffset (cap start i : Nat) : Nat :=
  if start ≤ i then i - start else cap - start + i

/-- The probing invariant: occupied keys are pairwise distinct, and on
the probe path of every occupied key no `empty` slot precedes its slot
(so `find_index`, which stops at the first empty, reaches it). -/
def MapInv {V : Type} (h : Nat → Nat) (m : OpenHashMap V) : Prop :=
  (occKeys m.slots).Nodup ∧
  ∀ i k v, i < m.slots.length → m.slots.getD i .empty = .occupied k v →
    ∀ j, j < probeOffset m.slots.length (mapKey h m.slots.length k) i →
      m.slots.getD ((mapKey h m.slots.length k + j) % m.slots.length) .empty ≠ .empty

/-- Specification bundle for one `try_emplace` at a given fuel: the
probing invariant is preserved, a successful insertion adds exactly the
key (which was absent), an unsuccessful call leaves the key multiset
unchanged, tombstone-freedom is preserved, the capacity never shrinks,
and insertion of an absent key into a tombstone-free, not-full table
succeeds. -/
def TProp {V : Type} (h : Nat → Nat) (fuel : Nat) (m : OpenHashMap V)
    (k : Nat) (v : V) : Prop :=
  MapInv h (tryEmplaceFuel h fuel m k v).1 ∧
  ((tryEmplaceFuel h fuel m k v).2.2 = true →
    List.Perm (occKeys (tryEmplaceFuel h fuel m k v).1.slots) (k :: occKeys m.slots) ∧
    k ∉ occKeys m.slots) ∧
  ((tryEmplaceFuel h fuel m k v).2.2 = false →
    List.Perm (occKeys (tryEmplaceFuel h fuel m k v).1.slots) (occKeys m.slots)) ∧
  (tombFree m.slots → tombFree (tryEmplaceFuel h fuel m k v).1.slots) ∧
  m.slots.length ≤ (tryEmplaceFuel h fuel m k v).1.slots.length ∧
  (tombFree m.slots → (occKeys m.slots).length < m.slots.length →
    k ∉ occKeys m.slots → (tryEmplaceFuel h fuel m k v).2.2 = true)

/-- Specification bundle for `expand`: the rehashed table satisfies the
invariant, holds the same keys, has no tombstones and has grown to (at
least) the next capacity. -/
def EProp {V : Type} (h : Nat → Nat) (fuel : Nat) (m : OpenHashMap V) : Prop :=
  MapInv h (expandFuel h fuel m) ∧
  List.Perm (occKeys (expandFuel h fuel m).slots) (occKeys m.slots) ∧
  tombFree (expandFuel h fuel m).slots ∧
  next_capacity m.slots.length ≤ (expandFuel h fuel m).slots.length

/-- A map history: `try_emplace` and `erase` calls. -/
inductive MapOp (V : Type) where
  | insert (k : Nat) (v : V)
  | erase (k : Nat)

/-- One history step, alongside the ghost list of live keys: a
successful insertion adds the key, an erase removes it. -/
def mapStep {V : Type} (h : Nat → Nat) (s : OpenHashMap V × List Nat) :
    MapOp V → OpenHashMap V × List Nat
  | .insert k v =>
    let r := tryEmplace h s.1 k v
    (r.1, if r.2.2 then k :: s.2 else s.2)
  | .erase k => (eraseKey h s.1 k, s.2.filter (fun k' => k' ≠ k))

/-- Run a history from the default-constructed map (capacity 0). -/
def runMap {V : Type} (h : Nat → Nat) (ops : List (MapOp V)) :
    OpenHashMap V × List Nat :=
  ops.foldl (mapStep h) (⟨[], 0⟩, [])

-- ---------------------------------------------------------------------
-- View over pools (view.hpp).  A registry pool captured by the view is
-- its entity column in storage order (`all_of` returns the pool's
-- key-value range, or an empty default range when the pool is absent,
-- registry.hpp:363-370); an iterator is one position per captured
-- range, `end` being the range's length.  Iteration is recursion over
-- the component index; the C++ `if constexpr (N == tuple_size)` stop is
-- carried as the explicit count of remaining components.
-- ---------------------------------------------------------------------

/-- `View::find_best` (view.hpp:201-214): fold from the last component
to the first; `ret` becomes the index whose range size is strictly
below the minimum of all later sizes (`none` models the initial
`PTRDIFF_MAX`).  `rem` counts the components left. -/
def findBestGo (P : List (List Entity)) : Nat → Nat → Nat → Nat × Option Nat
  | 0, _, ret => (ret, none)
  | rem + 1, N, ret =>
    let r := findBestGo P rem (N + 1) ret
    let sz := (P.getD N []).length
    match r.2 with
    | none => (N, some sz)
    | some z => if sz < z then (N, some sz) else r

/-- The `_master` index chosen by the `View` constructor
(initialised to 0, then `find_best(_master)`). -/
def viewMaster (P : List (List Entity)) : Nat :=
  (findBestGo P P.length 0 0).1

/-- `iterator` dereference of component `N`: the entity under position
`s[N]` of pool `N` (`std::get<N>(_iter)->first`). -/
def entAt (P : List (List Entity)) (N : Nat) (s : List Nat) : Entity :=
  (P.getD N []).getD (s.getD N 0) 0

/-- `iterator::is_end` (view.hpp:123-131): the master iterator equals
its end. -/
def isEnd (P : List (List Entity)) (m : Nat) (s : List Nat) : Bool :=
  s.getD m 0 == (P.getD m []).length

/-- `iterator::setup_iterators` (view.hpp:110-121): for every
non-master component, look the entity up in that pool (`find` returns
the end iterator — the length — when absent, registry.hpp:311-317) and
fail on a miss; assignments made before a miss are kept. -/
def setupGo (P : List (List Entity)) (m : Nat) (e : Entity) :
    Nat → Nat → List Nat → Bool × List Nat
  | 0, _, s => (true, s)
  | rem + 1, N, s =>
    if N = m then setupGo P m e rem (N + 1) s
    else
      let L := P.getD N []
      let i := L.findIdx (fun x => x == e)
      if i = L.length then (false, s)
      else setupGo P m e rem (N + 1) (s.set N i)

/-- `iterator::check_iterators_valid` (view.hpp:139-148): every
component iterator is distinct from its end and points at the same
entity as component 0. -/
def checkValidGo (P : List (List Entity)) (s : List Nat) : Nat → Nat → Bool
  | 0, _ => true
  | rem + 1, N =>
    if s.getD N 0 == (P.getD N []).length then false
    else if entAt P N s == entAt P 0 s then checkValidGo P s rem (N + 1)
    else false

/-- `iterator::check_after_advance` (view.hpp:150-156): while the
master is not at its end, try to line the other iterators up on the
master's entity; on failure advance all iterators and retry.  The loop
advances the master each round, so any fuel above the master pool's
length reproduces it. -/
def checkAfterAdvanceFuel (P : List (List Entity)) (m : Nat) :
    Nat → List Nat → List Nat
  | 0, s => s
  | fuel + 1, s =>
    if isEnd P m s then s
    else
      let r := setupGo P m (entAt P m s) P.length 0 s
      if r.1 then r.2
      else checkAfterAdvanceFuel P m fuel (r.2.map (fun x => x + 1))

/-- `iterator::operator++` (view.hpp:66-72): advance every component
iterator; if the result is not aligned, re-align. -/
def viewNext (P : List (List Entity)) (m : Nat) (s : List Nat) : List Nat :=
  let s2 := s.map (fun x => x + 1)
  if checkValidGo P s2 P.length 0 then s2
  else checkAfterAdvanceFuel P m ((P.getD m []).length + 1) s2

/-- `View::begin` (view.hpp:171-175): all component iterators at their
begins, re-aligned by the iterator constructor. -/
def viewBegin (P : List (List Entity)) (m : Nat) : List Nat :=
  checkAfterAdvanceFuel P m ((P.getD m []).length + 1)
    (List.replicate P.length 0)

/-- One range-based-for pass over the view: while not at the end, yield
`operator*`'s entity (component 0's) and step with `operator++`.  Each
step moves the master forward, so any fuel above the master pool's
length reproduces the C++ loop. -/
def viewCollectFuel (P : List (List Entity)) (m : Nat) :
    Nat → List Nat → List Entity
  | 0, _ => []
  | fuel + 1, s =>
    if isEnd P m s then []
    else entAt P 0 s :: viewCollectFuel P m fuel (viewNext P m s)

/-- The entities yielded by iterating a view over pools `P` from
`begin()` to `end()`. -/
def viewEntities (P : List (List Entity)) : List Entity :=
  viewCollectFuel P (viewMaster P) ((P.getD (viewMaster P) []).length + 1)
    (viewBegin P (viewMaster P))

/-- An index of the master pool whose entity lies in every pool. -/
def goodAt (P : List (List Entity)) (m j : Nat) : Prop :=
  ∀ N, N < P.length → (P.getD m []).getD j 0 ∈ P.getD N []

/-- An aligned (yield) state: one position per pool, the master at `j`,
every position in range and pointing at the master's entity. -/
def YState (P : List (List Entity)) (m j : Nat) (s : List Nat) : Prop :=
  s.length = P.length ∧ s.getD m 0 = j ∧ j < (P.getD m []).length ∧
  ∀ N, N < P.length → s.getD N 0 < (P.getD N []).length ∧
    (P.getD N []).getD (s.getD N 0) 0 = (P.getD m []).getD j 0

-- ===== THEOREMS =====

/-- **C10.** `clear()` does not reset the `_state` array, so the map is
not observably empty afterwards: starting from the default map, insert
key 1 (the table grows to capacity 5 and the key lands in a slot), then
`clear()`.  `size()` is 0 as the claim states, but `begin()` (offset 4)
differs from `end()` (offset 5) because the slot state is still
`occupied`, and `find(1)` still reaches that stale occupied slot
instead of missing. -/
theorem clear_not_observably_empty :
    (clearMap (tryEmplace id (⟨[], 0⟩ : OpenHashMap Nat) 1 99).1).sizeF = 0 ∧
    beginIdx (clearMap (tryEmplace id (⟨[], 0⟩ : OpenHashMap Nat) 1 99).1) = 4 ∧
    endIdx (clearMap (tryEmplace id (⟨[], 0⟩ : OpenHashMap Nat) 1 99).1) = 5 ∧
    findIndex id (clearMap (tryEmplace id (⟨[], 0⟩ : OpenHashMap Nat) 1 99).1) 1
      = some 4 := by
  have ekey : mapKey id 5 1 = 4 := by decide
  have eexp : expandFuel id 1 (⟨[], 0⟩ : OpenHashMap Nat)
      = ⟨List.replicate 5 .empty, 0⟩ := by
    rw [expandFuel]
    norm_num [next_capacity, prime_sizes]
  have eprobe : probeInsert (List.replicate 5 (Slot.empty : Slot Nat)) 4 1 99 none 0
      = ([.empty, .empty, .empty, .empty, .occupied 1 99], some 4, true) := by
    rw [probeInsert]
    norm_num [List.replicate]
  have eins : (tryEmplace id (⟨[], 0⟩ : OpenHashMap Nat) 1 99).1
      = ⟨[.empty, .empty, .empty, .empty, .occupied 1 99], 1⟩ := by
    show (tryEmplaceFuel id 2 (⟨[], 0⟩ : OpenHashMap Nat) 1 99).1 = _
    rw [tryEmplaceFuel]
    rw [if_pos (by norm_num)]
    rw [eexp]
    rw [tryEmplaceRaw]
    simp only [List.length_replicate, ekey, eprobe]
    norm_num
  rw [eins]
  have efind : probeFind ([.empty, .empty, .empty, .empty, .occupied 1 99] :
      List (Slot Nat)) 4 1 0 = some 4 := by
    rw [probeFind]
    norm_num
  simp only [clearMap, beginIdx, endIdx]
  refine ⟨by norm_num, ?_, by norm_num, ?_⟩
  · rw [beginScan]; norm_num
    rw [beginScan]; norm_num
    rw [beginScan]; norm_num
    rw [beginScan]; norm_num
    rw [beginScan]; norm_num
  · rw [findIndex]
    norm_num [ekey, efind]

/-- Helper: if `findIdx? p l = some i` and `p x`, then overwriting
position `i` with `x` makes `x` the first element found. -/
theorem find?_set_of_findIdx? {α : Type} (p : α → Bool) (l : List α) (i : Nat) (x : α)
    (h : l.findIdx? p = some i) (hx : p x = true) :
    (l.set i x).find? p = some x := by
  induction l generalizing i with
  | nil => simp at h
  | cons a t ih =>
    by_cases hpa : p a
    · rw [List.findIdx?_cons, if_pos hpa] at h
      obtain rfl : i = 0 := by simpa using h.symm
      simp [hx]
    · rw [List.findIdx?_cons, if_neg hpa, List.findIdx?_succ] at h
      cases i with
      | zero =>
        cases h' : t.findIdx? p with
        | none => rw [h'] at h; simp at h
        | some k =>
          rw [h'] at h
          simp only [Option.map_some', Option.some.injEq] at h
          exact absurd h (by omega)
      | succ j =>
        have ht : t.findIdx? p = some j := by
          cases h' : t.findIdx? p with
          | none => rw [h'] at h; simp at h
          | some k =>
            rw [h'] at h
            simp only [Option.map_some', Option.some.injEq] at h
            exact congrArg some (by omega)
        show List.find? p (a :: t.set j x) = some x
        rw [List.find?_cons_of_neg _ (by simpa using hpa)]
        exact ih j ht

/-- **C8 counterexample.** `set` does not return a created/replaced
boolean: on the creation input (empty pool) and on the replacement
input (entity 1 already mapped to 7) the call returns the same thing —
(a reference to) the stored value 42 — although `try_emplace` reports
`true` for the first and `false` for the second.  No boolean
distinction is visible in the return value. -/
theorem registry_set_return_counterexample :
    (registrySet ([] : List (Entity × Nat)) 1 42).2 = 42 ∧
    (registrySet [(1, 7)] 1 42).2 = 42 ∧
    registrySetCreated ([] : List (Entity × Nat)) 1 42 = true ∧
    registrySetCreated [(1, 7)] 1 42 = false := by decide

/-- **C8 amended.** `set<T>(e, [variant,] v)` returns a reference to
the stored component value (the new value, both when the component was
newly created and when an existing one was replaced); the internal
`try_emplace` flag is `true` exactly when the component was newly
created, i.e. when `e` had no entry in the pool. -/
theorem registry_set_spec {V : Type} [Inhabited V]
    (l : List (Entity × V)) (e : Entity) (v : V) :
    (registrySet l e v).2 = v ∧
    ((registrySet l e v).1.find? (fun p => p.1 == e)).map Prod.snd = some v ∧
    (registrySetCreated l e v = true ↔ ∀ p ∈ l, p.1 ≠ e) := by
  unfold registrySet registrySetCreated poolTryEmplace
  cases h : poolFindIdx l e with
  | none =>
    have hnone : ∀ p ∈ l, (p.1 == e) = false :=
      List.findIdx?_eq_none_iff.mp h
    refine ⟨?_, ?_, ?_⟩
    · simp [List.getD_eq_getElem?_getD]
    · rw [if_pos rfl]
      rw [List.find?_append, List.find?_eq_none.mpr (fun p hp => by simp [hnone p hp])]
      simp
    · show true = true ↔ ∀ p ∈ l, p.1 ≠ e
      constructor
      · intro _ p hp
        simpa using hnone p hp
      · intro _; rfl
  | some i =>
    obtain ⟨hi, hpi, -⟩ := List.findIdx?_eq_some_iff_getElem.mp h
    refine ⟨?_, ?_, ?_⟩
    · rw [if_neg Bool.false_ne_true]
      show ((l.set i (e, v)).getD i (e, v)).2 = v
      rw [List.getD_eq_getElem?_getD, List.getElem?_set_self (by simpa using hi)]
      simp
    · rw [if_neg Bool.false_ne_true]
      show (((l.set i (e, v)).find? fun p => p.1 == e)).map Prod.snd = some v
      rw [find?_set_of_findIdx? (fun p => p.1 == e) l i (e, v)
        (by simpa [poolFindIdx] using h) (by simp)]
      rfl
    · show false = true ↔ ∀ p ∈ l, p.1 ≠ e
      constructor
      · intro hfalse; cases hfalse
      · intro hall
        exact absurd (by simpa using hpi) (hall (l.get ⟨i, hi⟩) (l.get_mem _ _))

/-- **C1.** `contains<A, B>` with two or more component types never
checks the last listed type: with a pool for type 10 holding entity 5
and no pool at all for type 20, the query for both types answers
`true`, although entity 5 does not possess component 20 (the behaviour
the claim — and the source's own doc comment — demands is `false`). -/
theorem contains_skips_last_component :
    containsMulti demoDir 5 [10, 20] [] = true ∧
    contains1 demoDir 5 20 0 = false ∧
    allPresent demoDir 5 [10, 20] [] = false := by decide

/-- **C6.** `ecs_store` with a mismatching payload size: on a *fresh*
entity the insert fails with `-1` and no mutation (first conjunct, the
behaviour the claim demands), but on an entity that *already has* the
component `try_emplace` returns the existing slot without any size
check and `ecs_store` overwrites the slot with the differently-sized
payload and returns `0` (second conjunct, contradicting the claim).
The third conjunct shows the demo pool state is reached by a plain
4-byte store on an empty pool. -/
theorem ecs_store_size_mismatch :
    ecsStore binDemo 2 [9, 9] = (-1, binDemo) ∧
    ecsStore binDemo 1 [9, 9] = (0, ⟨4, [1], [9, 9, 3, 4]⟩) ∧
    ecsStore ⟨0, [], []⟩ 1 [1, 2, 3, 4] = (0, binDemo) := by decide

/-- Helper: in a pool with pairwise-distinct keys, elements are
determined by their key. -/
theorem key_inj {V : Type} (l : List (Entity × V)) (hnd : (l.map Prod.fst).Nodup) :
    ∀ p ∈ l, ∀ q ∈ l, p.1 = q.1 → p = q := by
  induction l with
  | nil => intro p hp; cases hp
  | cons a t ih =>
    rw [List.map_cons, List.nodup_cons] at hnd
    intro p hp q hq hpq
    rcases List.mem_cons.mp hp with rfl | hp' <;>
      rcases List.mem_cons.mp hq with rfl | hq'
    · rfl
    · exact absurd (hpq ▸ List.mem_map_of_mem Prod.fst hq') hnd.1
    · exact absurd (hpq ▸ List.mem_map_of_mem Prod.fst hp') hnd.1
    · exact ih hnd.2 p hp' q hq' hpq

/-- Helper: `find` by the key of a present element returns exactly that
element when keys are distinct. -/
theorem find?_key {V : Type} (l : List (Entity × V)) (hnd : (l.map Prod.fst).Nodup)
    (p : Entity × V) (hp : p ∈ l) :
    l.find? (fun q => q.1 == p.1) = some p := by
  induction l with
  | nil => cases hp
  | cons a t ih =>
    rw [List.map_cons, List.nodup_cons] at hnd
    by_cases ha : a.1 = p.1
    · have : p = a := key_inj (a :: t)
        (by rw [List.map_cons, List.nodup_cons]; exact hnd) p hp a (List.mem_cons_self a t) ha.symm
      subst this
      simp
    · rcases List.mem_cons.mp hp with rfl | hp'
      · exact absurd rfl ha
      · rw [List.find?_cons_of_neg _ (by simpa using ha)]
        exact ih hnd.2 hp'

/-- Helper: emplacing a list of elements with pairwise-distinct keys
into a fresh pool reproduces the list. -/
theorem buildPool_go {V : Type} (items : List (Entity × V)) :
    ∀ acc : List (Entity × V), ((acc ++ items).map Prod.fst).Nodup →
      items.foldl
        (fun acc p => if (acc.find? fun q => q.1 == p.1).isSome then acc else acc ++ [p]) acc
        = acc ++ items := by
  induction items with
  | nil => intro acc _; simp
  | cons p rest ih =>
    intro acc hacc
    have hfind : (acc.find? fun q => q.1 == p.1) = none := by
      refine List.find?_eq_none.mpr fun q hq => ?_
      rw [List.map_append, List.nodup_append] at hacc
      have : q.1 ≠ p.1 := by
        intro hqp
        exact hacc.2.2 (List.mem_map_of_mem Prod.fst hq) (hqp ▸ (by simp))
      simpa using this
    rw [List.foldl_cons, if_neg (by simp [hfind])]
    rw [ih (acc ++ [p]) (by simpa using hacc)]
    simp

theorem buildPool_eq_self {V : Type} (items : List (Entity × V))
    (hnd : (items.map Prod.fst).Nodup) : buildPool items = items := by
  simpa using buildPool_go items [] (by simpa using hnd)

/-- Helper: looking the sorted entities back up in the pool recovers the
pred-satisfying elements sorted by entity id (keys are distinct, so the
sorted permutation is unique). -/
theorem sorted_lookup_eq {V : Type} [Inhabited V] (l A : List (Entity × V))
    (hnd : (l.map Prod.fst).Nodup) (hA : A.Sublist l) :
    ((A.map Prod.fst).mergeSort (· ≤ ·)).map
        (fun e => (l.find? (fun q => q.1 == e)).getD (e, default))
      = A.mergeSort pairLe := by
  set resolve : Entity → Entity × V :=
    fun e => (l.find? (fun q => q.1 == e)).getD (e, default) with hresolve
  set K := A.map Prod.fst with hK
  set S := K.mergeSort (· ≤ ·) with hS
  set B := A.mergeSort pairLe with hB
  have hKnd : K.Nodup := (hA.map Prod.fst).nodup hnd
  have hres : ∀ p ∈ A, resolve p.1 = p := by
    intro p hp
    rw [hresolve]
    simp only [find?_key l hnd p (hA.subset hp), Option.getD_some]
  have hresK : ∀ e ∈ K, (resolve e).1 = e := by
    intro e he
    obtain ⟨p, hp, rfl⟩ := List.mem_map.mp he
    rw [hres p hp]
  have step1 : K.map resolve = A := by
    rw [hK, List.map_map]
    exact List.map_congr_left (fun p hp => hres p hp) |>.trans A.map_id
  have hpermSK : List.Perm S K := List.mergeSort_perm K _
  have hperm : List.Perm (S.map resolve) A := step1 ▸ hpermSK.map resolve
  have hpermB : List.Perm B A := List.mergeSort_perm A _
  have hSnd : S.Nodup := hpermSK.nodup_iff.mpr hKnd
  have hSsorted : S.Pairwise (fun a b : Entity => a ≤ b) := by
    have h0 := @List.sorted_mergeSort Entity (fun a b : Entity => decide (a ≤ b))
      (fun a b c hab hbc => by
        simp at hab hbc ⊢; exact Nat.le_trans hab hbc)
      (fun a b => by simp [Nat.le_total]) K
    exact h0.imp (fun h => by simpa using h)
  have hSlt : S.Pairwise (fun a b : Entity => a < b) :=
    (hSsorted.and hSnd).imp (fun h => Nat.lt_of_le_of_ne h.1 h.2)
  have hmidSorted : (S.map resolve).Pairwise pairLt := by
    rw [List.pairwise_map]
    refine List.Pairwise.imp_of_mem ?_ hSlt
    intro a b ha hb hab
    have h1 := hresK a (hpermSK.subset ha)
    have h2 := hresK b (hpermSK.subset hb)
    unfold pairLt
    rw [h1, h2]
    exact hab
  have hBle : B.Pairwise (fun p q : Entity × V => pairLe p q = true) :=
    List.sorted_mergeSort
      (fun a b c hab hbc => by
        simp [pairLe] at hab hbc ⊢; exact Nat.le_trans hab hbc)
      (fun a b => by
        simp [pairLe]
        exact Nat.le_total a.1 b.1) A
  have hBknd : (B.map Prod.fst).Nodup := ((hpermB.map Prod.fst).nodup_iff).mpr hKnd
  have hBne : B.Pairwise (fun p q : Entity × V => p.1 ≠ q.1) :=
    List.pairwise_map.mp hBknd
  have hBSorted : B.Pairwise pairLt := by
    refine (hBle.and hBne).imp (fun h => ?_)
    have h1 := h.1
    have h2 := h.2
    simp [pairLe] at h1
    exact Nat.lt_of_le_of_ne h1 h2
  exact List.eq_of_perm_of_sorted (hperm.trans hpermB.symm) hmidSorted hBSorted

/-- Helper: membership in the sorted entity vector decides the
predicate, for elements of the pool suffix. -/
theorem sortMap_contains_iff {V : Type} (l : List (Entity × V)) (st : Nat)
    (pred : Entity → V → Bool) (hnd : (l.map Prod.fst).Nodup)
    (p : Entity × V) (hp : p ∈ l.drop st) :
    ((((l.drop st).filter fun q => pred q.1 q.2).map Prod.fst).mergeSort
        (· ≤ ·)).contains p.1 = pred p.1 p.2 := by
  have hpl : p ∈ l := (List.drop_sublist st l).subset hp
  by_cases hdp : pred p.1 p.2 = true
  · rw [hdp]
    have : p ∈ (l.drop st).filter fun q => pred q.1 q.2 :=
      List.mem_filter.mpr ⟨hp, hdp⟩
    have hm : p.1 ∈ (((l.drop st).filter fun q => pred q.1 q.2).map Prod.fst).mergeSort
        (· ≤ ·) :=
      List.mem_mergeSort.mpr (List.mem_map_of_mem Prod.fst this)
    simp [hm]
  · rw [Bool.not_eq_true] at hdp
    rw [hdp]
    suffices hnm : ¬ p.1 ∈ (((l.drop st).filter fun q => pred q.1 q.2).map Prod.fst).mergeSort
        (· ≤ ·) by simp [hnm]
    intro hmem
    obtain ⟨q, hq, hqp⟩ := List.mem_map.mp (List.mem_mergeSort.mp hmem)
    have hqf := List.mem_filter.mp hq
    have hql : q ∈ l := (List.drop_sublist st l).subset hqf.1
    have : q = p := key_inj l hnd q hql p hpl hqp
    rw [this] at hqf
    rw [hdp] at hqf
    exact Bool.false_ne_true hqf.2

/-- Helper (shared): the result of `groupEntities`, spelled as prefix ++
sorted matching block ++ remaining non-matching elements. -/
theorem group_entities_eq_sorted {V : Type} [Inhabited V] (l : List (Entity × V))
    (pred : Entity → V → Bool) (hnd : (l.map Prod.fst).Nodup) :
    ∀ st, l.findIdx? (fun p => pred p.1 p.2) = some st →
      groupEntities l pred =
        some (l.take st
          ++ ((l.drop st).filter fun p => pred p.1 p.2).mergeSort pairLe
          ++ ((l.drop st).filter fun p => !pred p.1 p.2)) := by
    intro st hst
    unfold groupEntities
    rw [hst]
    have hA : ((l.drop st).filter fun p => pred p.1 p.2).Sublist l :=
      (List.filter_sublist (l.drop st)).trans (List.drop_sublist st l)
    have hmid := sorted_lookup_eq l ((l.drop st).filter fun p => pred p.1 p.2) hnd hA
    have htail : ((l.drop st).filter fun p =>
        !((((l.drop st).filter fun q => pred q.1 q.2).map Prod.fst).mergeSort
          (· ≤ ·)).contains p.1)
        = (l.drop st).filter fun p => !pred p.1 p.2 := by
      apply List.filter_congr
      intro p hp
      rw [sortMap_contains_iff l st pred hnd p hp]
    simp only [hmid, htail]
    congr 1
    apply buildPool_eq_self
    have hperm : List.Perm
        ((l.take st ++ (((l.drop st).filter fun p => pred p.1 p.2).mergeSort pairLe
          ++ (l.drop st).filter fun p => !pred p.1 p.2)).map Prod.fst)
        (l.map Prod.fst) := by
      have h1 : List.Perm
          (((l.drop st).filter fun p => pred p.1 p.2).mergeSort pairLe)
          ((l.drop st).filter fun p => pred p.1 p.2) :=
        List.mergeSort_perm _ _
      have h2 : List.Perm
          (((l.drop st).filter fun p => pred p.1 p.2) ++
            ((l.drop st).filter fun p => !pred p.1 p.2))
          (l.drop st) := List.filter_append_perm _ _
      calc (l.take st ++ (((l.drop st).filter fun p => pred p.1 p.2).mergeSort pairLe
              ++ (l.drop st).filter fun p => !pred p.1 p.2)).map Prod.fst
          = (l.take st).map Prod.fst ++
              ((((l.drop st).filter fun p => pred p.1 p.2).mergeSort pairLe).map Prod.fst
                ++ ((l.drop st).filter fun p => !pred p.1 p.2).map Prod.fst) := by
            simp [List.map_append]
        _ ~ (l.take st).map Prod.fst ++
              (((l.drop st).filter fun p => pred p.1 p.2).map Prod.fst
                ++ ((l.drop st).filter fun p => !pred p.1 p.2).map Prod.fst) :=
            List.Perm.append_left _ (List.Perm.append_right _ (h1.map Prod.fst))
        _ ~ (l.take st).map Prod.fst ++ (l.drop st).map Prod.fst := by
            refine List.Perm.append_left _ ?_
            have := h2.map Prod.fst
            simpa [List.map_append] using this
        _ = l.map Prod.fst := by rw [← List.map_append, List.take_append_drop]
    rw [show l.take st ++ (((l.drop st).filter fun p => pred p.1 p.2).mergeSort pairLe)
          ++ ((l.drop st).filter fun p => !pred p.1 p.2)
        = l.take st ++ ((((l.drop st).filter fun p => pred p.1 p.2).mergeSort pairLe)
          ++ ((l.drop st).filter fun p => !pred p.1 p.2)) from by simp]
    exact hperm.nodup_iff.mpr hnd

/-- Helper (shared): a successful `groupEntities` permutes the pool's
`(entity, value)` pairs. -/
theorem groupEntities_perm {V : Type} [Inhabited V] (l : List (Entity × V))
    (pred : Entity → V → Bool) (hnd : (l.map Prod.fst).Nodup)
    (r : List (Entity × V)) (hr : groupEntities l pred = some r) :
    List.Perm r l := by
    cases hfi : l.findIdx? (fun p => pred p.1 p.2) with
    | none =>
      unfold groupEntities at hr
      rw [hfi] at hr
      cases hr
    | some st =>
      rw [group_entities_eq_sorted l pred hnd st hfi] at hr
      obtain rfl : r = _ := (Option.some.injEq _ _ ▸ hr).symm
      have h1 : List.Perm
          (((l.drop st).filter fun p => pred p.1 p.2).mergeSort pairLe)
          ((l.drop st).filter fun p => pred p.1 p.2) := List.mergeSort_perm _ _
      have h2 : List.Perm
          (((l.drop st).filter fun p => pred p.1 p.2) ++
            ((l.drop st).filter fun p => !pred p.1 p.2))
          (l.drop st) := List.filter_append_perm _ _
      calc l.take st ++ (((l.drop st).filter fun p => pred p.1 p.2).mergeSort pairLe)
              ++ ((l.drop st).filter fun p => !pred p.1 p.2)
          = l.take st ++ ((((l.drop st).filter fun p => pred p.1 p.2).mergeSort pairLe)
              ++ ((l.drop st).filter fun p => !pred p.1 p.2)) := by simp
        _ ~ l.take st ++ (((l.drop st).filter fun p => pred p.1 p.2)
              ++ ((l.drop st).filter fun p => !pred p.1 p.2)) :=
            List.Perm.append_left _ (List.Perm.append_right _ (h1))
        _ ~ l.take st ++ l.drop st := List.Perm.append_left _ h2
        _ = l := List.take_append_drop st l

/-- **C3.** `group_entities` returns `false` exactly when no pool
element satisfies the predicate; otherwise it rebuilds the pool as: the
elements before the first satisfying element in their original order,
then the satisfying elements of the rest sorted ascending by entity id,
then the remaining non-satisfying elements in their original order —
a permutation of the original `(entity, value)` pairs. -/
theorem group_entities_spec {V : Type} [Inhabited V] (l : List (Entity × V))
    (pred : Entity → V → Bool) (hnd : (l.map Prod.fst).Nodup) :
    (groupEntities l pred = none ↔ ∀ p ∈ l, pred p.1 p.2 = false) ∧
    (∀ st, l.findIdx? (fun p => pred p.1 p.2) = some st →
       groupEntities l pred =
         some (l.take st
           ++ ((l.drop st).filter fun p => pred p.1 p.2).mergeSort pairLe
           ++ ((l.drop st).filter fun p => !pred p.1 p.2))) ∧
    (∀ r, groupEntities l pred = some r → List.Perm r l) := by
  refine ⟨?_, group_entities_eq_sorted l pred hnd, fun r hr => groupEntities_perm l pred hnd r hr⟩
  constructor
  · intro h
    cases hfi : l.findIdx? (fun p => pred p.1 p.2) with
    | none => exact fun p hp => by simpa using List.findIdx?_eq_none_iff.mp hfi p hp
    | some st => rw [group_entities_eq_sorted l pred hnd st hfi] at h; cases h
  · intro hall
    unfold groupEntities
    rw [List.findIdx?_eq_none_iff.mpr (fun p hp => by simp [hall p hp])]

/-- Witness for `group_entities_spec` on the pool
`[(3, 30), (2, 20), (1, 10)]` grouping entity 2: the first matching
element is at index 1, the sorted middle block is the singleton
`[(2, 20)]` and `(1, 10)` trails. -/
theorem group_entities_spec_witness :
    (([(3, 30), (2, 20), (1, 10)] : List (Entity × Nat)).map Prod.fst).Nodup ∧
    groupEntities ([(3, 30), (2, 20), (1, 10)] : List (Entity × Nat))
        (fun e (_ : Nat) => e == 2) =
      some [(3, 30), (2, 20), (1, 10)] := by
  have h := group_entities_spec ([(3, 30), (2, 20), (1, 10)] : List (Entity × Nat))
    (fun e (_ : Nat) => e == 2) (by decide)
  refine ⟨by decide, ?_⟩
  have h2 := h.2.1 1 (by decide)
  rw [h2]
  simp [List.mergeSort_singleton]

/-- **C7.** For paired iterators over the same keys/values containers
(both component positions advance in lockstep, hence agree), the
equality operator returns `true` exactly when both component iterators
are equal. -/
theorem paired_iterator_eq_iff (a b : PairedIterator)
    (ha : a.aligned) (hb : b.aligned) :
    a.eq b = true ↔ a.t_it = b.t_it ∧ a.u_it = b.u_it := by
  unfold PairedIterator.eq PairedIterator.aligned at *
  simp only [Bool.or_eq_true, beq_iff_eq]
  omega

/-- Witness for `paired_iterator_eq_iff` at concrete iterators (3,3)
and (3,3). -/
theorem paired_iterator_eq_iff_witness :
    (PairedIterator.mk 3 3).aligned ∧ (PairedIterator.mk 3 3).aligned ∧
      ((PairedIterator.mk 3 3).eq (PairedIterator.mk 3 3) = true ↔
        (3 : Nat) = 3 ∧ (3 : Nat) = 3) :=
  ⟨rfl, rfl, paired_iterator_eq_iff ⟨3, 3⟩ ⟨3, 3⟩ rfl rfl⟩

/-- **C9.** For an `AnyRef` or `ConstAnyRef` holding an object `v`:
on fingerprint mismatch `get` throws `std::bad_cast` and `get_if`
returns the empty optional; on a match both return (a reference to) the
held object. -/
theorem anyref_get_spec {V : Type} [Inhabited V] (a : AnyRef V)
    (c : ConstAnyRef V) (f : Nat) (v w : V)
    (hv : a.ref = some v) (hw : c.ref = some w) :
    (a.type ≠ f → a.get f = .error () ∧ a.getIf f = none) ∧
    (a.type = f → a.get f = .ok v ∧ a.getIf f = some v) ∧
    (c.type ≠ f → c.get f = .error () ∧ c.getIf f = none) ∧
    (c.type = f → c.get f = .ok w ∧ c.getIf f = some w) := by
  refine ⟨fun h => ?_, fun h => ?_, fun h => ?_, fun h => ?_⟩ <;>
    simp [AnyRef.get, AnyRef.getIf, AnyRef.holdsAlternative,
      ConstAnyRef.get, ConstAnyRef.getIf, ConstAnyRef.holdsAlternative,
      hv, hw, h]

/-- Witness for `anyref_get_spec`: a reference to `42` fingerprinted
`7`, queried with fingerprint `9` (mismatch) and `7` (match). -/
theorem anyref_get_spec_witness :
    ((AnyRef.mk (some 42) 7 : AnyRef Nat).get 9 = .error () ∧
      (AnyRef.mk (some 42) 7 : AnyRef Nat).getIf 9 = none) ∧
    ((AnyRef.mk (some 42) 7 : AnyRef Nat).get 7 = .ok 42 ∧
      (AnyRef.mk (some 42) 7 : AnyRef Nat).getIf 7 = some 42) := by
  have h := anyref_get_spec (AnyRef.mk (some 42) 7 : AnyRef Nat)
    (ConstAnyRef.mk (some 42) 7 : ConstAnyRef Nat) 9 42 42 rfl rfl
  have h' := anyref_get_spec (AnyRef.mk (some 42) 7 : AnyRef Nat)
    (ConstAnyRef.mk (some 42) 7 : ConstAnyRef Nat) 7 42 42 rfl rfl
  exact ⟨h.1 (by decide), (h'.2.1 rfl)⟩

/-- Helper: `set` at an in-range index splits as take/cons/drop. -/
theorem set_decomp {α : Type} (l : List α) (i : Nat) (h : i < l.length) (a : α) :
    l.set i a = l.take i ++ a :: l.drop (i + 1) := by
  induction l generalizing i with
  | nil => simp at h
  | cons x t ih =>
    cases i with
    | zero => simp
    | succ j =>
      simp only [List.set_cons_succ, List.take_succ_cons, List.drop_succ_cons,
        List.cons_append, List.cons.injEq, true_and]
      exact ih j (by simpa using h)

/-- Helper: overwriting a slot with the value it already holds is a
no-op. -/
theorem set_same {α : Type} (l : List α) (i : Nat) (a : α) (h : i < l.length)
    (ha : l.get ⟨i, h⟩ = a) : l.set i a = l := by
  induction l generalizing i with
  | nil => simp at h
  | cons x t ih =>
    cases i with
    | zero => simpa using ha.symm ▸ rfl
    | succ j =>
      simp only [List.set_cons_succ, List.cons.injEq, true_and]
      exact ih j (by simpa using h) (by simpa using ha)

/-- Helper: the swap-remove erase yields the original elements minus the
erased slot, as a permutation. -/
theorem swapRemove_perm {V : Type} [Inhabited V] (l : List (Entity × V)) (i : Nat)
    (h : i < l.length) :
    List.Perm l (l.getD i default :: swapRemove l i) := by
  have hgd : l.getD i default = l.get ⟨i, h⟩ := by
    rw [List.getD_eq_getElem?_getD, List.getElem?_eq_getElem h]
    rfl
  have hne : l ≠ [] := List.length_pos.mp (Nat.lt_of_le_of_lt (Nat.zero_le _) h)
  unfold swapRemove
  by_cases hi : i + 1 < l.length
  · rw [if_pos hi]
    have hdne : l.drop (i + 1) ≠ [] := by
      intro h0
      have := congrArg List.length h0
      simp only [List.length_drop, List.length_nil] at this
      omega
    have hLp : l.length - 1 < l.length := by omega
    have hLgd : l.getD (l.length - 1) default = l.get ⟨l.length - 1, hLp⟩ := by
      rw [List.getD_eq_getElem?_getD, List.getElem?_eq_getElem hLp]
      rfl
    have hsplit : l = l.take i ++ l.get ⟨i, h⟩ :: l.drop (i + 1) := by
      conv_lhs => rw [← List.take_append_drop i l]
      rw [List.drop_eq_getElem_cons h]
      rfl
    have hlastdrop : l.drop (i + 1)
        = (l.drop (i + 1)).dropLast ++ [l.get ⟨l.length - 1, hLp⟩] := by
      conv_lhs => rw [← List.dropLast_concat_getLast hdne]
      congr 1
      rw [List.getLast_eq_getElem _ hdne]
      congr 1
      · simp only [List.getElem_drop]
        congr 1
        simp only [List.length_drop]
        omega
    rw [set_decomp l i h, hLgd]
    rw [List.dropLast_append_of_ne_nil _ (List.cons_ne_nil _ _)]
    rw [List.dropLast_cons_of_ne_nil hdne]
    conv_lhs => rw [hsplit]
    conv_lhs => rw [hlastdrop]
    rw [hgd]
    rw [← Multiset.coe_eq_coe]
    simp only [← Multiset.cons_coe, ← Multiset.coe_add, ← Multiset.singleton_add]
    abel
  · rw [if_neg hi]
    have hil : i = l.length - 1 := by omega
    have hlast : l.get ⟨i, h⟩ = l.getLast hne := by
      rw [List.getLast_eq_getElem _ hne]
      simp only [List.get_eq_getElem]
      congr 1
    conv_lhs => rw [← List.dropLast_concat_getLast hne]
    rw [hgd, hlast]
    exact List.perm_append_singleton _ _

/-- Helper: along any pool history, keys stay distinct and the values
handed in are exactly the drop events so far plus the values still
stored (as multisets). -/
theorem drop_aux {V : Type} [Inhabited V] (ops : List (DropOp V)) :
    ∀ (l : List (Entity × V)) (d : List V), (l.map Prod.fst).Nodup →
      ((ops.foldl dropStep (l, d)).1.map Prod.fst).Nodup ∧
      List.Perm ((d ++ l.map Prod.snd) ++ insertedVals ops)
        ((ops.foldl dropStep (l, d)).2 ++ (ops.foldl dropStep (l, d)).1.map Prod.snd) := by
  induction ops with
  | nil => intro l d hnd; exact ⟨hnd, by simp [insertedVals]⟩
  | cons op rest ih =>
    intro l d hnd
    rw [List.foldl_cons]
    cases op with
    | setOp e v =>
      cases hfi : poolFindIdx l e with
      | none =>
        have hstep : dropStep (l, d) (DropOp.setOp e v) = (l ++ [(e, v)], d ++ []) := by
          simp only [dropStep, dropSet, hfi]
        rw [hstep]
        have hnd' : ((l ++ [(e, v)]).map Prod.fst).Nodup := by
          rw [List.map_append, List.nodup_append]
          refine ⟨hnd, by simp, ?_⟩
          intro x hx hx'
          obtain ⟨p, hp, rfl⟩ := List.mem_map.mp hx
          have := List.findIdx?_eq_none_iff.mp hfi p hp
          simp only [List.map_cons, List.map_nil, List.mem_singleton] at hx'
          rw [hx'] at this
          simp at this
        obtain ⟨ihn, ihp⟩ := ih (l ++ [(e, v)]) (d ++ []) hnd'
        refine ⟨ihn, List.Perm.trans ?_ ihp⟩
        show List.Perm ((d ++ l.map Prod.snd) ++ (v :: insertedVals rest)) _
        rw [← Multiset.coe_eq_coe]
        simp only [List.map_append, List.map_cons, List.map_nil, List.append_nil,
          ← Multiset.cons_coe, ← Multiset.coe_add, ← Multiset.singleton_add]
        abel
      | some i =>
        obtain ⟨hi, hpi, -⟩ := List.findIdx?_eq_some_iff_getElem.mp hfi
        have hstep : dropStep (l, d) (DropOp.setOp e v)
            = (l.set i (e, v), d ++ [(l.getD i default).2]) := by
          simp only [dropStep, dropSet, hfi]
        rw [hstep]
        have hgd : l.getD i default = l.get ⟨i, hi⟩ := by
          rw [List.getD_eq_getElem?_getD, List.getElem?_eq_getElem hi]
          rfl
        have hkey : (l.get ⟨i, hi⟩).1 = e := by simpa using hpi
        have hnd' : ((l.set i (e, v)).map Prod.fst).Nodup := by
          rw [List.map_set]
          have : (l.map Prod.fst).set i e = l.map Prod.fst := by
            apply set_same _ _ _ (by simpa using hi)
            rw [List.get_eq_getElem, List.getElem_map]
            exact hkey
          rw [this]
          exact hnd
        obtain ⟨ihn, ihp⟩ := ih (l.set i (e, v)) (d ++ [(l.getD i default).2]) hnd'
        refine ⟨ihn, List.Perm.trans ?_ ihp⟩
        show List.Perm ((d ++ l.map Prod.snd) ++ (v :: insertedVals rest)) _
        have hdecomp : l.map Prod.snd
            = (l.map Prod.snd).take i ++ (l.get ⟨i, hi⟩).2 :: (l.map Prod.snd).drop (i + 1) := by
          conv_lhs => rw [← List.take_append_drop i (l.map Prod.snd)]
          congr 1
          rw [List.drop_eq_getElem_cons (by simpa using hi)]
          simp
        have hsetvals : (l.set i (e, v)).map Prod.snd
            = (l.map Prod.snd).take i ++ v :: (l.map Prod.snd).drop (i + 1) := by
          rw [List.map_set, set_decomp _ _ (by simpa using hi)]
        rw [hgd, hdecomp, hsetvals]
        rw [← Multiset.coe_eq_coe]
        simp only [← Multiset.cons_coe, ← Multiset.coe_add, ← Multiset.singleton_add]
        abel
    | eraseOp e =>
      cases hfi : poolFindIdx l e with
      | none =>
        have hstep : dropStep (l, d) (DropOp.eraseOp e) = (l, d ++ []) := by
          simp only [dropStep, dropErase, hfi]
        rw [hstep]
        obtain ⟨ihn, ihp⟩ := ih l (d ++ []) hnd
        refine ⟨ihn, List.Perm.trans ?_ ihp⟩
        show List.Perm ((d ++ l.map Prod.snd) ++ insertedVals rest) _
        simp
      | some i =>
        obtain ⟨hi, -, -⟩ := List.findIdx?_eq_some_iff_getElem.mp hfi
        have hstep : dropStep (l, d) (DropOp.eraseOp e)
            = (swapRemove l i, d ++ [(l.getD i default).2]) := by
          simp only [dropStep, dropErase, hfi]
        rw [hstep]
        have hperm := swapRemove_perm l i hi
        have hnd' : ((swapRemove l i).map Prod.fst).Nodup := by
          have := (hperm.map Prod.fst).nodup_iff.mp hnd
          simp only [List.map_cons] at this
          exact this.of_cons
        obtain ⟨ihn, ihp⟩ := ih (swapRemove l i) (d ++ [(l.getD i default).2]) hnd'
        refine ⟨ihn, List.Perm.trans ?_ ihp⟩
        show List.Perm ((d ++ l.map Prod.snd) ++ insertedVals rest) _
        have hv := hperm.map Prod.snd
        simp only [List.map_cons] at hv
        refine List.Perm.append ?_ (List.Perm.refl _)
        calc d ++ l.map Prod.snd
            ~ d ++ ((l.getD i default).2 :: (swapRemove l i).map Prod.snd) :=
              List.Perm.append_left _ hv
          _ ~ (d ++ [(l.getD i default).2]) ++ (swapRemove l i).map Prod.snd := by
              rw [← Multiset.coe_eq_coe]
              simp only [← Multiset.cons_coe, ← Multiset.coe_add, ← Multiset.singleton_add]
              abel
    | groupOp pred =>
      cases hgr : groupEntities l pred with
      | none =>
        have hstep : dropStep (l, d) (DropOp.groupOp pred) = (l, d ++ []) := by
          simp only [dropStep, dropGroup, hgr]
        rw [hstep]
        obtain ⟨ihn, ihp⟩ := ih l (d ++ []) hnd
        refine ⟨ihn, List.Perm.trans ?_ ihp⟩
        show List.Perm ((d ++ l.map Prod.snd) ++ insertedVals rest) _
        simp
      | some r =>
        have hstep : dropStep (l, d) (DropOp.groupOp pred) = (r, d ++ []) := by
          simp only [dropStep, dropGroup, hgr]
        rw [hstep]
        have hperm : List.Perm r l := groupEntities_perm l pred hnd r hgr
        have hnd' : (r.map Prod.fst).Nodup := (hperm.map Prod.fst).nodup_iff.mpr hnd
        obtain ⟨ihn, ihp⟩ := ih r (d ++ []) hnd'
        refine ⟨ihn, List.Perm.trans ?_ ihp⟩
        show List.Perm ((d ++ l.map Prod.snd) ++ insertedVals rest) _
        refine List.Perm.append ?_ (List.Perm.refl _)
        rw [List.append_nil]
        exact List.Perm.append_left _ (hperm.map Prod.snd).symm

/-- Helper: an occupied slot's key is among `occKeys`. -/
theorem occKeys_mem {V : Type} (slots : List (Slot V)) (i : Nat) (k : Nat) (v : V)
    (hi : i < slots.length) (hs : slots.getD i .empty = .occupied k v) :
    k ∈ occKeys slots := by
  induction slots generalizing i with
  | nil => simp at hi
  | cons s rest ih =>
    cases i with
    | zero =>
      simp only [List.getD_cons_zero] at hs
      subst hs
      simp [occKeys]
    | succ j =>
      simp only [List.getD_cons_succ] at hs
      have hk := ih j (by simpa using hi) hs
      unfold occKeys at *
      rw [List.filterMap_cons]
      cases s with
      | occupied k' v' => exact List.mem_cons_of_mem _ hk
      | empty => exact hk
      | tombstone => exact hk

/-- Helper: a key among `occKeys` sits in some occupied slot. -/
theorem occKeys_mem_inv {V : Type} (slots : List (Slot V)) (k : Nat)
    (hk : k ∈ occKeys slots) :
    ∃ i v, i < slots.length ∧ slots.getD i .empty = .occupied k v := by
  induction slots with
  | nil => simp [occKeys] at hk
  | cons s rest ih =>
    unfold occKeys at hk
    rw [List.filterMap_cons] at hk
    cases hs : s with
    | occupied k' v' =>
      rw [hs] at hk
      simp only [List.mem_cons] at hk
      rcases hk with rfl | hk'
      · exact ⟨0, v', by simp, by simp⟩
      · obtain ⟨i, v, hi, hslot⟩ := ih hk'
        exact ⟨i + 1, v, by simpa using hi, by simpa using hslot⟩
    | empty =>
      rw [hs] at hk
      obtain ⟨i, v, hi, hslot⟩ := ih hk
      exact ⟨i + 1, v, by simpa using hi, by simpa using hslot⟩
    | tombstone =>
      rw [hs] at hk
      obtain ⟨i, v, hi, hslot⟩ := ih hk
      exact ⟨i + 1, v, by simpa using hi, by simpa using hslot⟩

/-- Helper: with pairwise-distinct occupied keys, a key occupies at most
one slot. -/
theorem occ_unique {V : Type} (slots : List (Slot V))
    (hnd : (occKeys slots).Nodup) :
    ∀ i1 i2 k v1 v2, i1 < slots.length → i2 < slots.length →
      slots.getD i1 .empty = .occupied k v1 →
      slots.getD i2 .empty = .occupied k v2 → i1 = i2 := by
  induction slots with
  | nil => intro i1 _ _ _ _ h; simp at h
  | cons s rest ih =>
    intro i1 i2 k v1 v2 h1 h2 hs1 hs2
    have hndr : (occKeys rest).Nodup := by
      unfold occKeys at hnd ⊢
      rw [List.filterMap_cons] at hnd
      cases s <;> simp_all [List.nodup_cons]
    cases i1 with
    | zero =>
      cases i2 with
      | zero => rfl
      | succ j2 =>
        simp only [List.getD_cons_zero] at hs1
        simp only [List.getD_cons_succ] at hs2
        subst hs1
        have : k ∈ occKeys rest := occKeys_mem rest j2 k v2 (by simpa using h2) hs2
        unfold occKeys at hnd
        rw [List.filterMap_cons] at hnd
        simp only [List.nodup_cons] at hnd
        exact absurd this hnd.1
    | succ j1 =>
      cases i2 with
      | zero =>
        simp only [List.getD_cons_succ] at hs1
        simp only [List.getD_cons_zero] at hs2
        subst hs2
        have : k ∈ occKeys rest := occKeys_mem rest j1 k v1 (by simpa using h1) hs1
        unfold occKeys at hnd
        rw [List.filterMap_cons] at hnd
        simp only [List.nodup_cons] at hnd
        exact absurd this hnd.1
      | succ j2 =>
        simp only [List.getD_cons_succ] at hs1 hs2
        have := ih hndr j1 j2 k v1 v2 (by simpa using h1) (by simpa using h2) hs1 hs2
        omega

/-- Helper: characterisation of one probe step's position. -/
theorem mod_char (start j cap : Nat) (hs : start < cap) (hj : j < cap) :
    (start + j) % cap = if start + j < cap then start + j else start + j - cap := by
  by_cases h : start + j < cap
  · rw [if_pos h, Nat.mod_eq_of_lt h]
  · rw [if_neg h]
    rw [Nat.mod_eq_sub_mod (by omega)]
    exact Nat.mod_eq_of_lt (by omega)

theorem probeOffset_lt (cap start i : Nat) (hs : start < cap) (hi : i < cap) :
    probeOffset cap start i < cap := by
  unfold probeOffset
  split <;> omega

theorem probeOffset_pos (cap start i : Nat) (hs : start < cap) (hi : i < cap) :
    (start + probeOffset cap start i) % cap = i := by
  rw [mod_char _ _ _ hs (probeOffset_lt cap start i hs hi)]
  unfold probeOffset
  split <;> split <;> omega

theorem pos_probeOffset (cap start j : Nat) (hs : start < cap) (hj : j < cap) :
    probeOffset cap start ((start + j) % cap) = j := by
  rw [mod_char _ _ _ hs hj]
  unfold probeOffset
  split <;> split <;> omega

/-- Helper: the probe path visits distinct slots at distinct offsets. -/
theorem pos_inj (cap start j1 j2 : Nat) (hs : start < cap) (h1 : j1 < cap)
    (h2 : j2 < cap) (he : (start + j1) % cap = (start + j2) % cap) : j1 = j2 := by
  have e1 := pos_probeOffset cap start j1 hs h1
  have e2 := pos_probeOffset cap start j2 hs h2
  rw [he] at e1
  omega

/-- Helper: `probeFind` answers only with a slot occupied by the
searched key. -/
theorem probeFind_some_occ {V : Type} (slots : List (Slot V)) (start k : Nat) :
    ∀ j pos, probeFind slots start k j = some pos →
      pos < slots.length ∧ ∃ v, slots.getD pos .empty = .occupied k v := by
  suffices H : ∀ n j pos, slots.length - j ≤ n → probeFind slots start k j = some pos →
      pos < slots.length ∧ ∃ v, slots.getD pos .empty = .occupied k v by
    intro j pos
    exact H (slots.length - j) j pos (Nat.le_refl _)
  intro n
  induction n with
  | zero =>
    intro j pos hle hp
    rw [probeFind, if_neg (by omega)] at hp
    cases hp
  | succ n ih =>
    intro j pos hle hp
    rw [probeFind] at hp
    by_cases hjl : j < slots.length
    · rw [if_pos hjl] at hp
      cases hslot : slots.getD ((start + j) % slots.length) .empty with
      | empty => rw [hslot] at hp; cases hp
      | tombstone =>
        rw [hslot] at hp
        exact ih (j + 1) pos (by omega) hp
      | occupied k' v =>
        rw [hslot] at hp
        dsimp only at hp
        by_cases hk : k' = k
        · rw [if_pos hk] at hp
          injection hp with hpos
          subst hpos
          subst hk
          exact ⟨Nat.mod_lt _ (by omega), v, hslot⟩
        · rw [if_neg hk] at hp
          exact ih (j + 1) pos (by omega) hp
    · rw [if_neg hjl] at hp
      cases hp

/-- Helper: when no `empty` slot and no other slot holding `k` precedes
slot `i` on `k`'s probe path, `probeFind` reaches `i`. -/
theorem probeFind_reach {V : Type} (slots : List (Slot V)) (start k i : Nat) (v : V)
    (hs : start < slots.length) (hi : i < slots.length)
    (hocc : slots.getD i .empty = .occupied k v)
    (hpre : ∀ j', j' < probeOffset slots.length start i →
        slots.getD ((start + j') % slots.length) .empty ≠ .empty)
    (hnok : ∀ j', j' < probeOffset slots.length start i →
        ∀ w, slots.getD ((start + j') % slots.length) .empty ≠ .occupied k w) :
    ∀ j, j ≤ probeOffset slots.length start i →
      probeFind slots start k j = some i := by
  have hoff : probeOffset slots.length start i < slots.length :=
    probeOffset_lt _ _ _ hs hi
  have base : probeFind slots start k (probeOffset slots.length start i) = some i := by
    rw [probeFind, if_pos (by omega), probeOffset_pos _ _ _ hs hi, hocc]
    dsimp only
    rw [if_pos rfl]
  suffices H : ∀ n j, probeOffset slots.length start i - j ≤ n →
      j ≤ probeOffset slots.length start i → probeFind slots start k j = some i by
    intro j hj
    exact H _ j (Nat.le_refl _) hj
  intro n
  induction n with
  | zero =>
    intro j hle hj
    have : j = probeOffset slots.length start i := by omega
    rw [this]
    exact base
  | succ n ih =>
    intro j hle hj
    by_cases hje : j = probeOffset slots.length start i
    · rw [hje]; exact base
    · have hjlt : j < probeOffset slots.length start i := by omega
      rw [probeFind, if_pos (by omega)]
      cases hslot : slots.getD ((start + j) % slots.length) .empty with
      | empty => exact absurd hslot (hpre j hjlt)
      | tombstone => exact ih (j + 1) (by omega) (by omega)
      | occupied k' w =>
        dsimp only
        by_cases hk : k' = k
        · subst hk
          exact absurd hslot (hnok j hjlt w)
        · rw [if_neg hk]
          exact ih (j + 1) (by omega) (by omega)

/-- Helper: under the probing invariant, `find_index` hits exactly the
live keys, at their occupied slots. -/
theorem findIndex_spec {V : Type} (h : Nat → Nat) (m : OpenHashMap V)
    (inv : MapInv h m) (k : Nat) :
    (∀ i, findIndex h m k = some i →
      i < m.slots.length ∧ ∃ v, m.slots.getD i .empty = .occupied k v) ∧
    ((findIndex h m k).isSome = true ↔ k ∈ occKeys m.slots) := by
  have hsome : ∀ i, findIndex h m k = some i →
      i < m.slots.length ∧ ∃ v, m.slots.getD i .empty = .occupied k v := by
    intro i hfi
    unfold findIndex at hfi
    by_cases hc : m.slots.length = 0
    · rw [if_pos hc] at hfi; cases hfi
    · rw [if_neg hc] at hfi
      exact probeFind_some_occ m.slots _ k 0 i hfi
  refine ⟨hsome, ?_, ?_⟩
  · intro hs
    obtain ⟨i, hfi⟩ := Option.isSome_iff_exists.mp hs
    obtain ⟨hi, v, hocc⟩ := hsome i hfi
    exact occKeys_mem m.slots i k v hi hocc
  · intro hk
    obtain ⟨i, v, hi, hocc⟩ := occKeys_mem_inv m.slots k hk
    have hc : m.slots.length ≠ 0 := by omega
    have hstart : mapKey h m.slots.length k < m.slots.length :=
      Nat.mod_lt _ (by omega)
    have hfind : probeFind m.slots (mapKey h m.slots.length k) k 0 = some i := by
      refine probeFind_reach m.slots _ k i v hstart hi hocc
        (fun j' hj' => inv.2 i k v hi hocc j' hj') ?_ 0 (Nat.zero_le _)
      intro j' hj' w hw
      have hposlt : (mapKey h m.slots.length k + j') % m.slots.length < m.slots.length :=
        Nat.mod_lt _ (by omega)
      have heq := occ_unique m.slots inv.1 _ i k w v hposlt hi hw hocc
      rw [← heq] at hj'
      have hj'cap : j' < m.slots.length := by
        have := probeOffset_lt m.slots.length (mapKey h m.slots.length k)
          ((mapKey h m.slots.length k + j') % m.slots.length) hstart hposlt
        omega
      rw [pos_probeOffset _ _ j' hstart hj'cap] at hj'
      omega
    unfold findIndex
    rw [if_neg hc, hfind]
    rfl

/-- Helper: a probe that does not insert leaves the table unchanged. -/
theorem probeInsert_not_inserted {V : Type} (slots : List (Slot V)) (start k : Nat)
    (v : V) :
    ∀ j tomb slots' it, probeInsert slots start k v tomb j = (slots', it, false) →
      slots' = slots := by
  suffices H : ∀ n j tomb slots' it, slots.length - j ≤ n →
      probeInsert slots start k v tomb j = (slots', it, false) → slots' = slots by
    intro j tomb slots' it
    exact H _ j tomb slots' it (Nat.le_refl _)
  intro n
  induction n with
  | zero =>
    intro j tomb slots' it hle hp
    rw [probeInsert, if_neg (by omega)] at hp
    exact (congrArg Prod.fst hp).symm
  | succ n ih =>
    intro j tomb slots' it hle hp
    rw [probeInsert] at hp
    by_cases hjl : j < slots.length
    · rw [if_pos hjl] at hp
      cases hslot : slots.getD ((start + j) % slots.length) .empty with
      | empty =>
        rw [hslot] at hp
        dsimp only at hp
        cases hp
      | tombstone =>
        rw [hslot] at hp
        exact ih (j + 1) _ slots' it (by omega) hp
      | occupied k' w =>
        rw [hslot] at hp
        dsimp only at hp
        by_cases hk : k' = k
        · rw [if_pos hk] at hp
          exact (congrArg Prod.fst hp).symm
        · rw [if_neg hk] at hp
          exact ih (j + 1) _ slots' it (by omega) hp
    · rw [if_neg hjl] at hp
      exact (congrArg Prod.fst hp).symm

/-- Helper: when slot `i` holds `k` and no empty or `k`-occupied slot
precedes it on the probe path, the emplace probe reports the existing
key without mutation, whatever tombstone it has remembered. -/
theorem probeInsert_reach {V : Type} (slots : List (Slot V)) (start k i : Nat)
    (v w : V) (hs : start < slots.length) (hi : i < slots.length)
    (hocc : slots.getD i .empty = .occupied k w)
    (hpre : ∀ j', j' < probeOffset slots.length start i →
        slots.getD ((start + j') % slots.length) .empty ≠ .empty)
    (hnok : ∀ j', j' < probeOffset slots.length start i →
        ∀ w', slots.getD ((start + j') % slots.length) .empty ≠ .occupied k w') :
    ∀ j, j ≤ probeOffset slots.length start i → ∀ tomb,
      probeInsert slots start k v tomb j = (slots, some i, false) := by
  have hoff : probeOffset slots.length start i < slots.length :=
    probeOffset_lt _ _ _ hs hi
  have base : ∀ tomb, probeInsert slots start k v tomb
      (probeOffset slots.length start i) = (slots, some i, false) := by
    intro tomb
    rw [probeInsert, if_pos (by omega), probeOffset_pos _ _ _ hs hi, hocc]
    dsimp only
    rw [if_pos rfl]
  suffices H : ∀ n j, probeOffset slots.length start i - j ≤ n →
      j ≤ probeOffset slots.length start i → ∀ tomb,
      probeInsert slots start k v tomb j = (slots, some i, false) by
    intro j hj tomb
    exact H _ j (Nat.le_refl _) hj tomb
  intro n
  induction n with
  | zero =>
    intro j hle hj tomb
    have : j = probeOffset slots.length start i := by omega
    rw [this]
    exact base tomb
  | succ n ih =>
    intro j hle hj tomb
    by_cases hje : j = probeOffset slots.length start i
    · rw [hje]; exact base tomb
    · have hjlt : j < probeOffset slots.length start i := by omega
      rw [probeInsert, if_pos (by omega)]
      cases hslot : slots.getD ((start + j) % slots.length) .empty with
      | empty => exact absurd hslot (hpre j hjlt)
      | tombstone => exact ih (j + 1) (by omega) (by omega) _
      | occupied k' w' =>
        dsimp only
        by_cases hk : k' = k
        · subst hk
          exact absurd hslot (hnok j hjlt w')
        · rw [if_neg hk]
          exact ih (j + 1) (by omega) (by omega) _

/-- Helper: characterisation of a successful insertion: the table gets
`occupied k v` at a slot that was `empty` or `tombstone`, and no
`empty` slot precedes that slot on the probe path. -/
theorem probeInsert_inserted_char {V : Type} (slots : List (Slot V)) (start k : Nat)
    (v : V) (hs : start < slots.length) :
    ∀ j tomb slots' t,
      (∀ j', j' < j → slots.getD ((start + j') % slots.length) .empty ≠ .empty) →
      (tomb = none ∨ ∃ j0, j0 < j ∧ tomb = some ((start + j0) % slots.length) ∧
        slots.getD ((start + j0) % slots.length) .empty = .tombstone) →
      probeInsert slots start k v tomb j = (slots', some t, true) →
      slots' = slots.set t (.occupied k v) ∧ t < slots.length ∧
      (slots.getD t .empty = .empty ∨ slots.getD t .empty = .tombstone) ∧
      (∀ j', j' < probeOffset slots.length start t →
        slots.getD ((start + j') % slots.length) .empty ≠ .empty) := by
  suffices H : ∀ n j tomb slots' t, slots.length - j ≤ n →
      (∀ j', j' < j → slots.getD ((start + j') % slots.length) .empty ≠ .empty) →
      (tomb = none ∨ ∃ j0, j0 < j ∧ tomb = some ((start + j0) % slots.length) ∧
        slots.getD ((start + j0) % slots.length) .empty = .tombstone) →
      probeInsert slots start k v tomb j = (slots', some t, true) →
      slots' = slots.set t (.occupied k v) ∧ t < slots.length ∧
      (slots.getD t .empty = .empty ∨ slots.getD t .empty = .tombstone) ∧
      (∀ j', j' < probeOffset slots.length start t →
        slots.getD ((start + j') % slots.length) .empty ≠ .empty) by
    intro j tomb slots' t
    exact H _ j tomb slots' t (Nat.le_refl _)
  intro n
  induction n with
  | zero =>
    intro j tomb slots' t hle hpre htomb hp
    rw [probeInsert, if_neg (by omega)] at hp
    cases hp
  | succ n ih =>
    intro j tomb slots' t hle hpre htomb hp
    rw [probeInsert] at hp
    by_cases hjl : j < slots.length
    · rw [if_pos hjl] at hp
      cases hslot : slots.getD ((start + j) % slots.length) .empty with
      | empty =>
        rw [hslot] at hp
        dsimp only at hp
        obtain ⟨h1, h2, h3⟩ : slots.set (tomb.getD ((start + j) % slots.length))
              (.occupied k v) = slots'
            ∧ tomb.getD ((start + j) % slots.length) = t ∧ True := by
          refine ⟨congrArg Prod.fst hp, ?_, trivial⟩
          have := congrArg (fun p => p.2.1) hp
          simpa using this
        cases htomb with
        | inl hnone =>
          subst hnone
          simp only [Option.getD_none] at h1 h2
          subst h2
          refine ⟨h1.symm, Nat.mod_lt _ (by omega), Or.inl hslot, ?_⟩
          intro j' hj'
          rw [pos_probeOffset _ _ j hs (by omega)] at hj'
          exact hpre j' hj'
        | inr hsome =>
          obtain ⟨j0, hj0, rfl, htombslot⟩ := hsome
          simp only [Option.getD_some] at h1 h2
          subst h2
          refine ⟨h1.symm, Nat.mod_lt _ (by omega), Or.inr htombslot, ?_⟩
          intro j' hj'
          rw [pos_probeOffset _ _ j0 hs (by omega)] at hj'
          exact hpre j' (by omega)
      | tombstone =>
        rw [hslot] at hp
        refine ih (j + 1) _ slots' t (by omega) ?_ ?_ hp
        · intro j' hj'
          by_cases hjj : j' = j
          · rw [hjj, hslot]
            intro hcontra
            cases hcontra
          · exact hpre j' (by omega)
        · right
          cases htomb with
          | inl hnone =>
            subst hnone
            exact ⟨j, by omega, by simp, hslot⟩
          | inr hsome =>
            obtain ⟨j0, hj0, rfl, htombslot⟩ := hsome
            exact ⟨j0, by omega, by simp, htombslot⟩
      | occupied k' w =>
        rw [hslot] at hp
        dsimp only at hp
        by_cases hk : k' = k
        · rw [if_pos hk] at hp
          cases hp
        · rw [if_neg hk] at hp
          refine ih (j + 1) _ slots' t (by omega) ?_ ?_ hp
          · intro j' hj'
            by_cases hjj : j' = j
            · rw [hjj, hslot]
              intro hcontra
              cases hcontra
            · exact hpre j' (by omega)
          · cases htomb with
            | inl hnone => exact Or.inl hnone
            | inr hsome =>
              obtain ⟨j0, hj0, heq, htombslot⟩ := hsome
              exact Or.inr ⟨j0, by omega, heq, htombslot⟩
    · rw [if_neg hjl] at hp
      cases hp

/-- Helper: with an empty slot present in the table and the key absent,
the emplace probe inserts. -/
theorem probeInsert_success {V : Type} (slots : List (Slot V)) (start k : Nat)
    (v : V) (_hs : start < slots.length)
    (hempty : ∃ i, i < slots.length ∧ slots.getD i .empty = .empty)
    (hnk : ∀ i w, i < slots.length → slots.getD i .empty ≠ .occupied k w) :
    ∀ j tomb, (∃ je, j ≤ je ∧ je < slots.length ∧
        slots.getD ((start + je) % slots.length) .empty = .empty) →
      (probeInsert slots start k v tomb j).2.2 = true := by
  suffices H : ∀ n j tomb, slots.length - j ≤ n →
      (∃ je, j ≤ je ∧ je < slots.length ∧
        slots.getD ((start + je) % slots.length) .empty = .empty) →
      (probeInsert slots start k v tomb j).2.2 = true by
    intro j tomb
    exact H _ j tomb (Nat.le_refl _)
  intro n
  induction n with
  | zero =>
    intro j tomb hle ⟨je, hj, hje, _⟩
    omega
  | succ n ih =>
    intro j tomb hle ⟨je, hjje, hje, hjeslot⟩
    have hjl : j < slots.length := by omega
    rw [probeInsert, if_pos hjl]
    cases hslot : slots.getD ((start + j) % slots.length) .empty with
    | empty => rfl
    | tombstone =>
      refine ih (j + 1) _ (by omega) ⟨je, ?_, hje, hjeslot⟩
      rcases Nat.eq_or_lt_of_le hjje with rfl | h
      · rw [hjeslot] at hslot; cases hslot
      · omega
    | occupied k' w =>
      dsimp only
      have hk : k' ≠ k := by
        intro hcontra
        subst hcontra
        exact hnk _ w (Nat.mod_lt _ (by omega)) hslot
      rw [if_neg hk]
      refine ih (j + 1) _ (by omega) ⟨je, ?_, hje, hjeslot⟩
      rcases Nat.eq_or_lt_of_le hjje with rfl | h
      · rw [hjeslot] at hslot; cases hslot
      · omega

/-- Helper: setting any slot to a non-empty value preserves
non-emptiness at every position. -/
theorem getD_set_ne_empty {V : Type} (slots : List (Slot V)) (t pos : Nat)
    (x : Slot V) (hx : x ≠ Slot.empty)
    (hpos : slots.getD pos .empty ≠ .empty) :
    (slots.set t x).getD pos .empty ≠ .empty := by
  by_cases hlen : pos < slots.length
  · by_cases hpt : t = pos
    · subst hpt
      rw [List.getD_eq_getElem?_getD, List.getElem?_set_self hlen]
      simpa using hx
    · rw [List.getD_eq_getElem?_getD, List.getElem?_set_ne hpt,
        ← List.getD_eq_getElem?_getD]
      exact hpos
  · exfalso
    apply hpos
    rw [List.getD_eq_getElem?_getD, List.getElem?_eq_none (by omega)]
    rfl

/-- Helper: occupying a previously empty-or-tombstone slot adds exactly
that key to the occupied keys. -/
theorem occKeys_set_occupied_perm {V : Type} :
    ∀ (slots : List (Slot V)) (t k : Nat) (v : V), t < slots.length →
      (slots.getD t .empty = .empty ∨ slots.getD t .empty = .tombstone) →
      List.Perm (occKeys (slots.set t (.occupied k v))) (k :: occKeys slots) := by
  intro slots
  induction slots with
  | nil => intro t k v ht _; simp at ht
  | cons s rest ih =>
    intro t k v ht hfree
    cases t with
    | zero =>
      simp only [List.getD_cons_zero] at hfree
      rw [List.set_cons_zero]
      unfold occKeys
      rw [List.filterMap_cons, List.filterMap_cons]
      rcases hfree with rfl | rfl <;> exact List.Perm.refl _
    | succ t' =>
      simp only [List.getD_cons_succ] at hfree
      rw [List.set_cons_succ]
      unfold occKeys
      rw [List.filterMap_cons, List.filterMap_cons]
      have hperm := ih t' k v (by simpa using ht) hfree
      unfold occKeys at hperm
      cases s with
      | empty => exact hperm
      | tombstone => exact hperm
      | occupied k2 v2 =>
        dsimp only
        exact (hperm.cons k2).trans (List.Perm.swap k k2 _)

/-- Helper: tombstoning an occupied slot removes exactly its key from
the occupied keys. -/
theorem occKeys_set_tombstone_perm {V : Type} :
    ∀ (slots : List (Slot V)) (i k : Nat) (v : V), i < slots.length →
      slots.getD i .empty = .occupied k v →
      List.Perm (occKeys slots) (k :: occKeys (slots.set i .tombstone)) := by
  intro slots
  induction slots with
  | nil => intro i k v hi _; simp at hi
  | cons s rest ih =>
    intro i k v hi hocc
    cases i with
    | zero =>
      simp only [List.getD_cons_zero] at hocc
      subst hocc
      rw [List.set_cons_zero]
      unfold occKeys
      rw [List.filterMap_cons, List.filterMap_cons]
    | succ i' =>
      simp only [List.getD_cons_succ] at hocc
      rw [List.set_cons_succ]
      unfold occKeys
      rw [List.filterMap_cons, List.filterMap_cons]
      have hperm := ih i' k v (by simpa using hi) hocc
      unfold occKeys at hperm
      cases s with
      | empty => exact hperm
      | tombstone => exact hperm
      | occupied k2 v2 =>
        dsimp only
        exact (hperm.cons k2).trans (List.Perm.swap k k2 _)

/-- Helper: a freshly allocated slot array has no occupied slots. -/
theorem occKeys_replicate {V : Type} (n : Nat) :
    occKeys (List.replicate n (Slot.empty : Slot V)) = [] := by
  unfold occKeys
  rw [List.filterMap_replicate]

/-- Helper: a freshly allocated slot array has no tombstones. -/
theorem tombFree_replicate {V : Type} (n : Nat) :
    tombFree (List.replicate n (Slot.empty : Slot V)) := by
  intro s hs
  rw [List.eq_of_mem_replicate hs]
  simp

/-- Helper: the fresh table of a rehash satisfies the probing
invariant. -/
theorem mapInv_fresh {V : Type} (h : Nat → Nat) (n : Nat) :
    MapInv h (⟨List.replicate n Slot.empty, 0⟩ : OpenHashMap V) := by
  unfold MapInv
  dsimp only
  refine ⟨by rw [occKeys_replicate]; exact List.nodup_nil, ?_⟩
  intro i k v _ hocc
  exfalso
  rw [List.getD_eq_getElem?_getD, List.getElem?_replicate] at hocc
  by_cases hin : i < n
  · rw [if_pos hin] at hocc
    simp at hocc
  · rw [if_neg hin] at hocc
    simp at hocc

/-- Helper: occupying a slot preserves tombstone-freedom. -/
theorem tombFree_set_occupied {V : Type} (slots : List (Slot V)) (t k : Nat)
    (v : V) (htf : tombFree slots) :
    tombFree (slots.set t (.occupied k v)) := by
  intro s hs
  rcases List.mem_or_eq_of_mem_set hs with hmem | rfl
  · exact htf s hmem
  · simp

/-- Helper: there are at most as many occupied keys as slots. -/
theorem occKeys_length_le {V : Type} (slots : List (Slot V)) :
    (occKeys slots).length ≤ slots.length :=
  List.length_filterMap_le _ _

/-- Helper: a tombstone-free table that is not full has an empty
slot. -/
theorem exists_empty_of_tombFree {V : Type} :
    ∀ (slots : List (Slot V)), tombFree slots →
      (occKeys slots).length < slots.length →
      ∃ i, i < slots.length ∧ slots.getD i .empty = .empty := by
  intro slots
  induction slots with
  | nil => intro _ hlt; simp [occKeys] at hlt
  | cons s rest ih =>
    intro htf hlt
    have htfr : tombFree rest := fun x hx => htf x (List.mem_cons_of_mem s hx)
    cases hs : s with
    | empty => exact ⟨0, by simp, by simp⟩
    | tombstone => exact absurd hs (htf s (List.mem_cons_self s rest))
    | occupied k v =>
      rw [hs] at hlt
      have hrest : (occKeys rest).length < rest.length := by
        unfold occKeys at hlt ⊢
        rw [List.filterMap_cons] at hlt
        dsimp only at hlt
        simp only [List.length_cons] at hlt
        omega
      obtain ⟨i, hi, hslot⟩ := ih htfr hrest
      exact ⟨i + 1, by simpa using hi, by simpa using hslot⟩

/-- Helper: `next_capacity` strictly grows the capacity. -/
theorem next_capacity_gt (c : Nat) : c < next_capacity c := by
  unfold next_capacity
  cases hf : prime_sizes.find? (fun p => c < p) with
  | none =>
    show c < c * 2 + 1
    omega
  | some p =>
    show c < p
    have hp := List.find?_some hf
    simpa using hp

/-- Helper: a `none` iterator from the emplace probe never reports an
insertion. -/
theorem probeInsert_none_not_inserted {V : Type} (slots : List (Slot V))
    (start k : Nat) (v : V) :
    ∀ j tomb slots_f, probeInsert slots start k v tomb j = (slots_f, none, true) →
      False := by
  suffices H : ∀ n j tomb slots_f, slots.length - j ≤ n →
      probeInsert slots start k v tomb j = (slots_f, none, true) → False by
    intro j tomb slots_f
    exact H _ j tomb slots_f (Nat.le_refl _)
  intro n
  induction n with
  | zero =>
    intro j tomb slots_f hle hp
    rw [probeInsert, if_neg (by omega)] at hp
    cases hp
  | succ n ih =>
    intro j tomb slots_f hle hp
    rw [probeInsert] at hp
    by_cases hjl : j < slots.length
    · rw [if_pos hjl] at hp
      cases hslot : slots.getD ((start + j) % slots.length) .empty with
      | empty =>
        rw [hslot] at hp
        dsimp only at hp
        have := congrArg (fun p => p.2.1) hp
        simp at this
      | tombstone =>
        rw [hslot] at hp
        exact ih (j + 1) _ slots_f (by omega) hp
      | occupied k2 w =>
        rw [hslot] at hp
        dsimp only at hp
        by_cases hk : k2 = k
        · rw [if_pos hk] at hp
          have := congrArg (fun p => p.2.2) hp
          simp at this
        · rw [if_neg hk] at hp
          exact ih (j + 1) _ slots_f (by omega) hp
    · rw [if_neg hjl] at hp
      cases hp

/-- Helper: the probing invariant only depends on the slot array. -/
theorem mapInv_of_slots_eq {V : Type} (h : Nat → Nat) (m1 m2 : OpenHashMap V)
    (he : m1.slots = m2.slots) (inv : MapInv h m1) : MapInv h m2 := by
  unfold MapInv at *
  rw [← he]
  exact inv

/-- Helper: full specification of the probe-and-construct step
`tryEmplaceRaw` under the probing invariant: the invariant is preserved,
the capacity is unchanged, a successful insertion adds exactly the
(previously absent) key, an unsuccessful call leaves the slots
untouched, tombstone-freedom is preserved, and inserting an absent key
into a tombstone-free non-full table succeeds. -/
theorem tryEmplaceRaw_spec {V : Type} (h : Nat → Nat) (m : OpenHashMap V)
    (k : Nat) (v : V) (inv : MapInv h m) :
    MapInv h (tryEmplaceRaw h m k v).1 ∧
    (tryEmplaceRaw h m k v).1.slots.length = m.slots.length ∧
    ((tryEmplaceRaw h m k v).2.2 = true →
      List.Perm (occKeys (tryEmplaceRaw h m k v).1.slots) (k :: occKeys m.slots) ∧
      k ∉ occKeys m.slots) ∧
    ((tryEmplaceRaw h m k v).2.2 = false →
      (tryEmplaceRaw h m k v).1.slots = m.slots) ∧
    (tombFree m.slots → tombFree (tryEmplaceRaw h m k v).1.slots) ∧
    (tombFree m.slots → (occKeys m.slots).length < m.slots.length →
      k ∉ occKeys m.slots → (tryEmplaceRaw h m k v).2.2 = true) := by
  have e1 : (tryEmplaceRaw h m k v).1.slots =
      (probeInsert m.slots (mapKey h m.slots.length k) k v none 0).1 := rfl
  have e2 : (tryEmplaceRaw h m k v).2.2 =
      (probeInsert m.slots (mapKey h m.slots.length k) k v none 0).2.2 := rfl
  rcases hres : probeInsert m.slots (mapKey h m.slots.length k) k v none 0
    with ⟨slots_f, it, ins⟩
  rw [hres] at e1 e2
  dsimp only at e1 e2
  cases ins with
  | false =>
    have heq : slots_f = m.slots :=
      probeInsert_not_inserted m.slots _ k v 0 none slots_f it hres
    subst heq
    refine ⟨?_, ?_, ?_, ?_, ?_, ?_⟩
    · exact mapInv_of_slots_eq h m _ e1.symm inv
    · rw [e1]
    · intro htrue
      rw [e2] at htrue
      cases htrue
    · intro _
      exact e1
    · intro htf
      rw [e1]
      exact htf
    · intro htf hlt hk
      exfalso
      have hcap : 0 < m.slots.length := by omega
      have hstart : mapKey h m.slots.length k < m.slots.length :=
        Nat.mod_lt _ hcap
      obtain ⟨ie, hie, hieslot⟩ := exists_empty_of_tombFree m.slots htf hlt
      have hnk : ∀ i w, i < m.slots.length →
          m.slots.getD i .empty ≠ .occupied k w := by
        intro i w hi hcontra
        exact hk (occKeys_mem m.slots i k w hi hcontra)
      have hsucc := probeInsert_success m.slots _ k v hstart ⟨ie, hie, hieslot⟩
        hnk 0 none
        ⟨probeOffset m.slots.length (mapKey h m.slots.length k) ie, Nat.zero_le _,
          probeOffset_lt _ _ _ hstart hie, by
            rw [probeOffset_pos _ _ _ hstart hie]
            exact hieslot⟩
      rw [hres] at hsucc
      simp at hsucc
  | true =>
    have hcap : 0 < m.slots.length := by
      by_contra hc
      rw [probeInsert, if_neg (by omega)] at hres
      have := congrArg (fun p => p.2.2) hres
      simp at this
    have hstart : mapKey h m.slots.length k < m.slots.length :=
      Nat.mod_lt _ hcap
    cases it with
    | none =>
      exact (probeInsert_none_not_inserted m.slots _ k v 0 none slots_f hres).elim
    | some t =>
      obtain ⟨hset, htlt, hfreeSlot, hpref⟩ :=
        probeInsert_inserted_char m.slots _ k v hstart 0 none slots_f t
          (fun j' hj' => absurd hj' (Nat.not_lt_zero j')) (Or.inl rfl) hres
      have hknot : k ∉ occKeys m.slots := by
        intro hk
        obtain ⟨i, w, hi, hocc⟩ := occKeys_mem_inv m.slots k hk
        have hnok : ∀ j',
            j' < probeOffset m.slots.length (mapKey h m.slots.length k) i →
            ∀ w', m.slots.getD ((mapKey h m.slots.length k + j') % m.slots.length)
              .empty ≠ .occupied k w' := by
          intro j' hj' w' hw
          have hposlt :
              (mapKey h m.slots.length k + j') % m.slots.length < m.slots.length :=
            Nat.mod_lt _ (by omega)
          have heq := occ_unique m.slots inv.1 _ i k w' w hposlt hi hw hocc
          rw [← heq] at hj'
          have hj'cap : j' < m.slots.length := by
            have := probeOffset_lt m.slots.length (mapKey h m.slots.length k)
              ((mapKey h m.slots.length k + j') % m.slots.length) hstart hposlt
            omega
          rw [pos_probeOffset _ _ j' hstart hj'cap] at hj'
          omega
        have hreach := probeInsert_reach m.slots _ k i v w hstart hi hocc
          (fun j' hj' => inv.2 i k w hi hocc j' hj') hnok 0 (Nat.zero_le _) none
        rw [hres] at hreach
        have := congrArg (fun p => p.2.2) hreach
        simp at this
      have hperm : List.Perm (occKeys slots_f) (k :: occKeys m.slots) := by
        rw [hset]
        exact occKeys_set_occupied_perm m.slots t k v htlt hfreeSlot
      have hlenf : slots_f.length = m.slots.length := by
        rw [hset, List.length_set]
      have hinvf : MapInv h (⟨slots_f, 0⟩ : OpenHashMap V) := by
        unfold MapInv
        dsimp only
        constructor
        · exact hperm.symm.nodup (List.nodup_cons.mpr ⟨hknot, inv.1⟩)
        · intro i k2 v2 hi hocc2
          rw [hlenf] at hi ⊢
          intro j hj
          by_cases hit : i = t
          · subst hit
            have hslot_t : slots_f.getD i .empty = Slot.occupied k v := by
              rw [hset, List.getD_eq_getElem?_getD, List.getElem?_set_self htlt]
              rfl
            rw [hslot_t] at hocc2
            cases hocc2
            rw [hset]
            exact getD_set_ne_empty m.slots i _ _ (by simp) (hpref j hj)
          · have hocc_m : m.slots.getD i .empty = .occupied k2 v2 := by
              rw [hset, List.getD_eq_getElem?_getD,
                List.getElem?_set_ne (fun hc => hit hc.symm),
                ← List.getD_eq_getElem?_getD] at hocc2
              exact hocc2
            have hold := inv.2 i k2 v2 hi hocc_m j hj
            rw [hset]
            exact getD_set_ne_empty m.slots t _ _ (by simp) hold
      refine ⟨?_, ?_, ?_, ?_, ?_, ?_⟩
      · exact mapInv_of_slots_eq h ⟨slots_f, 0⟩ _ e1.symm hinvf
      · rw [e1, hlenf]
      · intro _
        refine ⟨?_, hknot⟩
        rw [e1]
        exact hperm
      · intro hfalse
        rw [e2] at hfalse
        cases hfalse
      · intro htf
        rw [e1, hset]
        exact tombFree_set_occupied m.slots t k v htf
      · intro _ _ _
        exact e2

/-- Helper: `occKeys` over a `cons`, one equation per state. -/
theorem occKeys_cons_empty {V : Type} (rest : List (Slot V)) :
    occKeys (Slot.empty :: rest) = occKeys rest := rfl

theorem occKeys_cons_tombstone {V : Type} (rest : List (Slot V)) :
    occKeys (Slot.tombstone :: rest) = occKeys rest := rfl

theorem occKeys_cons_occupied {V : Type} (k : Nat) (v : V) (rest : List (Slot V)) :
    occKeys (Slot.occupied k v :: rest) = k :: occKeys rest := rfl

/-- Helper: the re-insertion fold of `expand` at a fixed fuel: given the
`try_emplace` specification at that fuel, folding a slot list into a
well-formed tombstone-free accumulator with enough room inserts exactly
the occupied keys. -/
theorem expandFold_aux {V : Type} (h : Nat → Nat) (fuel : Nat) (N : Nat)
    (HT : ∀ (m : OpenHashMap V) (k : Nat) (v : V), MapInv h m → TProp h fuel m k v) :
    ∀ (src : List (Slot V)) (acc : OpenHashMap V),
      MapInv h acc → tombFree acc.slots →
      (occKeys acc.slots ++ occKeys src).Nodup →
      (occKeys acc.slots).length + (occKeys src).length < N →
      N ≤ acc.slots.length →
      MapInv h (src.foldl (expandStep h fuel) acc) ∧
      tombFree (src.foldl (expandStep h fuel) acc).slots ∧
      List.Perm (occKeys (src.foldl (expandStep h fuel) acc).slots)
        (occKeys acc.slots ++ occKeys src) ∧
      N ≤ (src.foldl (expandStep h fuel) acc).slots.length := by
  intro src
  induction src with
  | nil =>
    intro acc hinv htf hnd hbud hN
    refine ⟨hinv, htf, ?_, hN⟩
    simp [occKeys]
  | cons s rest ih =>
    intro acc hinv htf hnd hbud hN
    rw [List.foldl_cons]
    cases s with
    | empty =>
      have hstep : expandStep h fuel acc Slot.empty = acc := rfl
      rw [hstep]
      rw [occKeys_cons_empty] at hnd hbud ⊢
      exact ih acc hinv htf hnd hbud hN
    | tombstone =>
      have hstep : expandStep h fuel acc Slot.tombstone = acc := rfl
      rw [hstep]
      rw [occKeys_cons_tombstone] at hnd hbud ⊢
      exact ih acc hinv htf hnd hbud hN
    | occupied k v =>
      have hstep : expandStep h fuel acc (Slot.occupied k v) =
          (tryEmplaceFuel h fuel acc k v).1 := rfl
      rw [hstep]
      rw [occKeys_cons_occupied] at hnd hbud ⊢
      have hT := HT acc k v hinv
      unfold TProp at hT
      obtain ⟨t1, t2, _t3, t4, t5, t6⟩ := hT
      rw [List.nodup_append] at hnd
      obtain ⟨hndA, hndKR, hdisj⟩ := hnd
      have hkA : k ∉ occKeys acc.slots := by
        intro hc
        exact hdisj hc (List.mem_cons_self k _)
      have hkR : k ∉ occKeys rest := (List.nodup_cons.mp hndKR).1
      have hroom : (occKeys acc.slots).length < acc.slots.length := by
        simp only [List.length_cons] at hbud
        omega
      have hins := t6 htf hroom hkA
      obtain ⟨hperm, _⟩ := t2 hins
      have htf' := t4 htf
      have hN' : N ≤ (tryEmplaceFuel h fuel acc k v).1.slots.length :=
        Nat.le_trans hN t5
      have hnd' : (occKeys (tryEmplaceFuel h fuel acc k v).1.slots ++
          occKeys rest).Nodup := by
        refine (hperm.append_right (occKeys rest)).symm.nodup ?_
        show ((k :: occKeys acc.slots) ++ occKeys rest).Nodup
        rw [List.cons_append, List.nodup_cons]
        constructor
        · intro hc
          rcases List.mem_append.mp hc with hc1 | hc1
          · exact hkA hc1
          · exact hkR hc1
        · rw [List.nodup_append]
          refine ⟨hndA, (List.nodup_cons.mp hndKR).2, ?_⟩
          intro x hx1 hx2
          exact hdisj hx1 (List.mem_cons_of_mem k hx2)
      have hbud' : (occKeys (tryEmplaceFuel h fuel acc k v).1.slots).length +
          (occKeys rest).length < N := by
        have hlen := hperm.length_eq
        simp only [List.length_cons] at hlen hbud
        omega
      obtain ⟨ri, rtf, rperm, rN⟩ := ih _ t1 htf' hnd' hbud' hN'
      refine ⟨ri, rtf, ?_, rN⟩
      refine rperm.trans ?_
      refine (hperm.append_right (occKeys rest)).trans ?_
      show List.Perm (k :: (occKeys acc.slots ++ occKeys rest)) _
      exact List.perm_middle.symm

/-- Helper: specification of `expand` at a given fuel, derived from the
`try_emplace` specification at that fuel. -/
theorem expandFuel_spec_of {V : Type} (h : Nat → Nat) (fuel : Nat)
    (HT : ∀ (m : OpenHashMap V) (k : Nat) (v : V), MapInv h m → TProp h fuel m k v)
    (m : OpenHashMap V) (inv : MapInv h m) : EProp h fuel m := by
  unfold EProp
  have hfold : expandFuel h fuel m = m.slots.foldl (expandStep h fuel)
      ⟨List.replicate (next_capacity m.slots.length) Slot.empty, 0⟩ := by
    rw [expandFuel]
    have hfun : ∀ (acc : OpenHashMap V) (s : Slot V),
        (match s with
          | Slot.occupied k v => (tryEmplaceFuel h fuel acc k v).1
          | _ => acc) = expandStep h fuel acc s := by
      intro acc s
      cases s <;> rfl
    simp only [hfun]
  rw [hfold]
  have haux := expandFold_aux h fuel (next_capacity m.slots.length) HT m.slots
    ⟨List.replicate (next_capacity m.slots.length) Slot.empty, 0⟩
    (mapInv_fresh h _)
    (tombFree_replicate _)
    (by dsimp only
        rw [occKeys_replicate, List.nil_append]
        exact inv.1)
    (by dsimp only
        rw [occKeys_replicate]
        have h1 := occKeys_length_le m.slots
        have h2 := next_capacity_gt m.slots.length
        simp only [List.length_nil]
        omega)
    (by dsimp only
        rw [List.length_replicate])
  obtain ⟨hi, ht, hp, hl⟩ := haux
  refine ⟨hi, ?_, ht, hl⟩
  refine hp.trans ?_
  dsimp only
  rw [occKeys_replicate, List.nil_append]

/-- Helper: the `try_emplace` specification holds at every fuel. -/
theorem tryEmplaceFuel_spec {V : Type} (h : Nat → Nat) :
    ∀ (fuel : Nat) (m : OpenHashMap V) (k : Nat) (v : V),
      MapInv h m → TProp h fuel m k v := by
  intro fuel
  induction fuel with
  | zero =>
    intro m k v inv
    unfold TProp
    have heq : tryEmplaceFuel h 0 m k v = tryEmplaceRaw h m k v := by
      rw [tryEmplaceFuel]
    rw [heq]
    obtain ⟨r1, r2, r3, r4, r5, r6⟩ := tryEmplaceRaw_spec h m k v inv
    refine ⟨r1, r3, ?_, r5, Nat.le_of_eq r2.symm, r6⟩
    intro hf
    exact List.Perm.of_eq (congrArg occKeys (r4 hf))
  | succ fuel ih =>
    intro m k v inv
    unfold TProp
    have heq : tryEmplaceFuel h (fuel + 1) m k v =
        tryEmplaceRaw h
          (if m.slots.length * 3 / 5 ≤ m.sizeF then expandFuel h fuel m else m)
          k v := by
      rw [tryEmplaceFuel]
    rw [heq]
    by_cases htrig : m.slots.length * 3 / 5 ≤ m.sizeF
    · rw [if_pos htrig]
      have hE := expandFuel_spec_of h fuel ih m inv
      unfold EProp at hE
      obtain ⟨einv, eperm, etf, elen⟩ := hE
      obtain ⟨r1, r2, r3, r4, r5, r6⟩ :=
        tryEmplaceRaw_spec h (expandFuel h fuel m) k v einv
      have hgt := next_capacity_gt m.slots.length
      refine ⟨r1, ?_, ?_, ?_, ?_, ?_⟩
      · intro htrue
        obtain ⟨hperm, hnot⟩ := r3 htrue
        exact ⟨hperm.trans (eperm.cons k), fun hk => hnot (eperm.symm.mem_iff.mp hk)⟩
      · intro hfalse
        have hse := congrArg occKeys (r4 hfalse)
        exact (List.Perm.of_eq hse).trans eperm
      · intro _
        exact r5 etf
      · omega
      · intro _ hlt hk
        refine r6 etf ?_ ?_
        · have hle := eperm.length_eq
          omega
        · intro hkm
          exact hk (eperm.mem_iff.mp hkm)
    · rw [if_neg htrig]
      obtain ⟨r1, r2, r3, r4, r5, r6⟩ := tryEmplaceRaw_spec h m k v inv
      refine ⟨r1, r3, ?_, r5, Nat.le_of_eq r2.symm, r6⟩
      intro hf
      exact List.Perm.of_eq (congrArg occKeys (r4 hf))

/-- Helper: specification of `erase(key)` under the probing invariant:
the invariant is preserved, erasing a live key removes exactly that key
from the occupied keys, and erasing an absent key is a no-op. -/
theorem eraseKey_spec {V : Type} (h : Nat → Nat) (m : OpenHashMap V)
    (inv : MapInv h m) (k : Nat) :
    MapInv h (eraseKey h m k) ∧
    (k ∈ occKeys m.slots →
      List.Perm (occKeys m.slots) (k :: occKeys (eraseKey h m k).slots)) ∧
    (k ∉ occKeys m.slots → eraseKey h m k = m) := by
  have hfi := findIndex_spec h m inv k
  cases hf : findIndex h m k with
  | none =>
    have heq : eraseKey h m k = m := by
      unfold eraseKey
      rw [hf]
    rw [heq]
    refine ⟨inv, ?_, fun _ => rfl⟩
    intro hk
    exfalso
    have hs := hfi.2.mpr hk
    rw [hf] at hs
    simp at hs
  | some i =>
    obtain ⟨hi, v, hocc⟩ := hfi.1 i hf
    have heq : eraseKey h m k = ⟨m.slots.set i .tombstone, m.sizeF - 1⟩ := by
      unfold eraseKey
      rw [hf]
    rw [heq]
    dsimp only
    have hperm := occKeys_set_tombstone_perm m.slots i k v hi hocc
    refine ⟨?_, fun _ => hperm, ?_⟩
    · unfold MapInv
      dsimp only
      constructor
      · exact (List.nodup_cons.mp (hperm.nodup inv.1)).2
      · intro i2 k2 v2 hi2 hocc2
        rw [List.length_set] at hi2 ⊢
        intro j hj
        have hii : i ≠ i2 := by
          intro hceq
          subst hceq
          rw [List.getD_eq_getElem?_getD, List.getElem?_set_self hi] at hocc2
          simp at hocc2
        have hocc_m : m.slots.getD i2 .empty = .occupied k2 v2 := by
          rw [List.getD_eq_getElem?_getD, List.getElem?_set_ne hii,
            ← List.getD_eq_getElem?_getD] at hocc2
          exact hocc2
        have hold := inv.2 i2 k2 v2 hi2 hocc_m j hj
        exact getD_set_ne_empty m.slots i _ _ (by simp) hold
    · intro hk
      exfalso
      apply hk
      apply hfi.2.mp
      rw [hf]
      rfl

/-- Helper: along any operation history from the default-constructed
map, the probing invariant holds and the ghost live-key list holds
exactly the occupied keys. -/
theorem runMap_aux {V : Type} (h : Nat → Nat) :
    ∀ (ops : List (MapOp V)) (st : OpenHashMap V × List Nat),
      MapInv h st.1 → (∀ k, k ∈ st.2 ↔ k ∈ occKeys st.1.slots) →
      MapInv h (ops.foldl (mapStep h) st).1 ∧
      (∀ k, k ∈ (ops.foldl (mapStep h) st).2 ↔
        k ∈ occKeys (ops.foldl (mapStep h) st).1.slots) := by
  intro ops
  induction ops with
  | nil =>
    intro st h1 h2
    exact ⟨h1, h2⟩
  | cons op rest ih =>
    intro st h1 h2
    rw [List.foldl_cons]
    cases op with
    | insert k v =>
      have hT := tryEmplaceFuel_spec h (st.1.sizeF + st.1.slots.length + 2) st.1 k v h1
      unfold TProp at hT
      obtain ⟨t1, t2, t3, _t4, _t5, _t6⟩ := hT
      have hstep : mapStep h st (MapOp.insert k v) =
          ((tryEmplace h st.1 k v).1,
            if (tryEmplace h st.1 k v).2.2 then k :: st.2 else st.2) := rfl
      rw [hstep]
      refine ih _ ?_ ?_
      · exact t1
      · intro k2
        dsimp only
        rw [show tryEmplace h st.1 k v =
          tryEmplaceFuel h (st.1.sizeF + st.1.slots.length + 2) st.1 k v from rfl]
        by_cases hins :
            (tryEmplaceFuel h (st.1.sizeF + st.1.slots.length + 2) st.1 k v).2.2 = true
        · rw [if_pos hins]
          obtain ⟨hperm, _⟩ := t2 hins
          rw [List.mem_cons, hperm.mem_iff, List.mem_cons, h2 k2]
        · rw [if_neg hins]
          have hins2 :
              (tryEmplaceFuel h (st.1.sizeF + st.1.slots.length + 2) st.1 k v).2.2
                = false := by
            cases hb : (tryEmplaceFuel h (st.1.sizeF + st.1.slots.length + 2) st.1 k v).2.2
            · rfl
            · exact absurd hb hins
          have hperm := t3 hins2
          rw [hperm.mem_iff, h2 k2]
    | erase k =>
      obtain ⟨e1, e2, e3⟩ := eraseKey_spec h st.1 h1 k
      have hstep : mapStep h st (MapOp.erase k) =
          (eraseKey h st.1 k, st.2.filter (fun k2 => k2 ≠ k)) := rfl
      rw [hstep]
      refine ih _ ?_ ?_
      · exact e1
      · intro k2
        dsimp only
        rw [List.mem_filter]
        by_cases hk : k ∈ occKeys st.1.slots
        · have hperm := e2 hk
          have hnd : (k :: occKeys (eraseKey h st.1 k).slots).Nodup :=
            hperm.nodup h1.1
          constructor
          · rintro ⟨hmem, hne⟩
            have hm1 : k2 ∈ occKeys st.1.slots := (h2 k2).mp hmem
            have hm2 := hperm.mem_iff.mp hm1
            rcases List.mem_cons.mp hm2 with rfl | h4
            · exfalso
              simp at hne
            · exact h4
          · intro hmem2
            have hkne : k2 ≠ k := by
              intro hceq
              subst hceq
              exact (List.nodup_cons.mp hnd).1 hmem2
            have hm1 : k2 ∈ occKeys st.1.slots :=
              hperm.mem_iff.mpr (List.mem_cons_of_mem _ hmem2)
            exact ⟨(h2 k2).mpr hm1, by simpa using hkne⟩
        · rw [e3 hk]
          constructor
          · rintro ⟨hmem, _⟩
            exact (h2 k2).mp hmem
          · intro hmem
            refine ⟨(h2 k2).mpr hmem, ?_⟩
            have hkne : k2 ≠ k := by
              intro hceq
              subst hceq
              exact hk hmem
            simpa using hkne

/-- Helper: the probing invariant and the live-key correspondence for a
full history from the default-constructed map. -/
theorem runMap_inv {V : Type} (h : Nat → Nat) (ops : List (MapOp V)) :
    MapInv h (runMap h ops).1 ∧
    (∀ k, k ∈ (runMap h ops).2 ↔ k ∈ occKeys (runMap h ops).1.slots) := by
  refine runMap_aux h ops (⟨[], 0⟩, []) ?_ ?_
  · constructor
    · simp [occKeys]
    · intro i k v hi
      simp at hi
  · intro k
    simp [occKeys]

/-- **C4.** After any sequence of `try_emplace` and `erase` operations
starting from the default-constructed map, `find_index` — whose probe
from the hashed slot of `k` skips tombstones and stops at the first
empty slot — succeeds exactly on the live keys: every erased key is
unreachable, every live key remains reachable even across tombstones
left by erasures (including tombstone slots reused by later
insertions), and a hit lands on a slot occupied by the searched key. -/
theorem open_map_find_live (V : Type) (h : Nat → Nat) (ops : List (MapOp V))
    (k : Nat) :
    ((findIndex h (runMap h ops).1 k).isSome = true ↔ k ∈ (runMap h ops).2) ∧
    (∀ i, findIndex h (runMap h ops).1 k = some i →
      i < (runMap h ops).1.slots.length ∧
      ∃ v, (runMap h ops).1.slots.getD i .empty = Slot.occupied k v) := by
  obtain ⟨hinv, hiff⟩ := runMap_inv h ops
  have hfi := findIndex_spec h (runMap h ops).1 hinv k
  refine ⟨?_, hfi.1⟩
  rw [hfi.2, hiff k]

/-- **C5.** Each value handed to a droppable pool is dropped exactly
once over its lifecycle: across any history of `set`/`emplace`,
`remove`/`destroy_entity` erasures and `group_entities` rotations
starting from the empty pool, the multiset of inserted values equals
the drop events emitted during the history plus the drops performed
when the pool (and with it the registry) is destroyed.  In particular
`group_entities` emits no drop events at all (its step contributes [])
and replaced/removed values are dropped once each. -/
theorem drop_exactly_once {V : Type} [Inhabited V] (ops : List (DropOp V)) :
    List.Perm (insertedVals ops)
      ((runDrop ops).2 ++ destroyDrops (runDrop ops).1) := by
  have h := (drop_aux ops [] [] (by simp)).2
  simpa [runDrop, destroyDrops] using h

/-- Helper: an in-range `getD` is a member. -/
theorem getD_mem_of_lt {α : Type} (l : List α) (n : Nat) (d : α)
    (h : n < l.length) : l.getD n d ∈ l := by
  rw [List.getD_eq_getElem?_getD, List.getElem?_eq_getElem h]
  exact List.getElem_mem h

/-- Helper: advancing increments every in-range position. -/
theorem getD_map_succ (s : List Nat) (N : Nat) (h : N < s.length) :
    (s.map (fun x => x + 1)).getD N 0 = s.getD N 0 + 1 := by
  simp [List.getD_eq_getElem?_getD, List.getElem?_map, List.getElem?_eq_getElem h]

/-- Helper: the all-pools membership test, read off by pool index. -/
theorem allPools_iff (P : List (List Entity)) (e : Entity) :
    (P.all (fun L => L.contains e) = true) ↔
      ∀ N, N < P.length → e ∈ P.getD N [] := by
  rw [List.all_eq_true]
  constructor
  · intro hall N hN
    have hmem : P.getD N [] ∈ P := getD_mem_of_lt P N [] hN
    have := hall _ hmem
    simpa using this
  · intro hidx L hL
    obtain ⟨N, hN, heq⟩ := List.mem_iff_getElem.mp hL
    have hmem := hidx N hN
    rw [List.getD_eq_getElem?_getD, List.getElem?_eq_getElem hN] at hmem
    simp only [Option.getD_some] at hmem
    rw [heq] at hmem
    simpa using hmem

/-- Helper: `find_best` returns an in-range index of minimal range
size. -/
theorem findBestGo_spec (P : List (List Entity)) :
    ∀ rem N ret, N + rem = P.length → 0 < rem →
      N ≤ (findBestGo P rem N ret).1 ∧ (findBestGo P rem N ret).1 < P.length ∧
      (findBestGo P rem N ret).2 =
        some ((P.getD (findBestGo P rem N ret).1 []).length) ∧
      ∀ K, N ≤ K → K < P.length →
        (P.getD (findBestGo P rem N ret).1 []).length ≤ (P.getD K []).length := by
  intro rem
  induction rem with
  | zero =>
    intro N ret _ h0
    omega
  | succ rem ih =>
    intro N ret hlen _
    rw [findBestGo]
    cases rem with
    | zero =>
      rw [findBestGo]
      dsimp only
      refine ⟨Nat.le_refl N, by omega, rfl, ?_⟩
      intro K hNK hK
      have hKN : K = N := by omega
      rw [hKN]
    | succ rem2 =>
      obtain ⟨h1, h2, h3, h4⟩ := ih (N + 1) ret (by omega) (by omega)
      rw [h3]
      dsimp only
      by_cases hlt : (P.getD N []).length <
          (P.getD (findBestGo P (rem2 + 1) (N + 1) ret).1 []).length
      · rw [if_pos hlt]
        refine ⟨Nat.le_refl N, by omega, rfl, ?_⟩
        intro K hNK hK
        rcases Nat.eq_or_lt_of_le hNK with rfl | hKgt
        · exact Nat.le_refl _
        · exact Nat.le_trans (Nat.le_of_lt hlt) (h4 K (by omega) hK)
      · rw [if_neg hlt]
        refine ⟨by omega, h2, h3, ?_⟩
        intro K hNK hK
        rcases Nat.eq_or_lt_of_le hNK with rfl | hKgt
        · omega
        · exact h4 K (by omega) hK

/-- Helper: the chosen master pool is in range and of minimal size. -/
theorem viewMaster_spec (P : List (List Entity)) (hne : P ≠ []) :
    viewMaster P < P.length ∧
    ∀ L ∈ P, (P.getD (viewMaster P) []).length ≤ L.length := by
  have hlen : 0 < P.length := List.length_pos.mpr hne
  obtain ⟨_, h2, _, h4⟩ := findBestGo_spec P P.length 0 0 (by omega) hlen
  refine ⟨h2, ?_⟩
  intro L hL
  obtain ⟨N, hN, heq⟩ := List.mem_iff_getElem.mp hL
  have hle := h4 N (Nat.zero_le _) hN
  have hgetD : P.getD N [] = L := by
    rw [List.getD_eq_getElem?_getD, List.getElem?_eq_getElem hN]
    exact heq
  rw [hgetD] at hle
  exact hle

/-- Helper: full characterisation of `setup_iterators` from component
`N` on: the state length is kept, positions below `N` and the master
position are kept, success re-points every later non-master component
at the entity, and success holds exactly when the entity lies in every
later non-master pool. -/
theorem setupGo_spec (P : List (List Entity)) (m : Nat) (e : Entity) :
    ∀ rem N s, N + rem = P.length → s.length = P.length →
      (setupGo P m e rem N s).2.length = s.length ∧
      (∀ K, K < N ∨ K = m → (setupGo P m e rem N s).2.getD K 0 = s.getD K 0) ∧
      ((setupGo P m e rem N s).1 = true →
        ∀ K, N ≤ K → K < P.length → K ≠ m →
          (setupGo P m e rem N s).2.getD K 0 < (P.getD K []).length ∧
          (P.getD K []).getD ((setupGo P m e rem N s).2.getD K 0) 0 = e) ∧
      ((setupGo P m e rem N s).1 = true ↔
        ∀ K, N ≤ K → K < P.length → K ≠ m → e ∈ P.getD K []) := by
  intro rem
  induction rem with
  | zero =>
    intro N s hlen hs
    rw [setupGo]
    refine ⟨rfl, fun K _ => rfl, ?_, ?_⟩
    · intro _ K hNK hK _
      omega
    · constructor
      · intro _ K hNK hK _
        omega
      · intro _
        rfl
  | succ rem ih =>
    intro N s hlen hs
    rw [setupGo]
    by_cases hNm : N = m
    · rw [if_pos hNm]
      obtain ⟨i1, i2, i3, i4⟩ := ih (N + 1) s (by omega) hs
      refine ⟨i1, ?_, ?_, ?_⟩
      · intro K hK
        apply i2
        rcases hK with hK | hK
        · left
          omega
        · right
          exact hK
      · intro htrue K hNK hK hKm
        exact i3 htrue K (by omega) hK hKm
      · rw [i4]
        constructor
        · intro hgt K hNK hK hKm
          exact hgt K (by omega) hK hKm
        · intro hgt K hN1K hK hKm
          exact hgt K (by omega) hK hKm
    · rw [if_neg hNm]
      dsimp only
      by_cases hfind :
          (P.getD N []).findIdx (fun x => x == e) = (P.getD N []).length
      · rw [if_pos hfind]
        refine ⟨rfl, fun K _ => rfl, ?_, ?_⟩
        · intro hcontra
          cases hcontra
        · constructor
          · intro hcontra
            cases hcontra
          · intro hall
            exfalso
            have hmem := hall N (Nat.le_refl N) (by omega) hNm
            have hlt : (P.getD N []).findIdx (fun x => x == e) <
                (P.getD N []).length :=
              List.findIdx_lt_length_of_exists ⟨e, hmem, by simp⟩
            omega
      · rw [if_neg hfind]
        have hflt : (P.getD N []).findIdx (fun x => x == e) <
            (P.getD N []).length := by
          have hle := @List.findIdx_le_length Entity (fun x => x == e) (P.getD N [])
          omega
        have hs2 : (s.set N ((P.getD N []).findIdx (fun x => x == e))).length
            = P.length := by
          rw [List.length_set]
          exact hs
        obtain ⟨i1, i2, i3, i4⟩ :=
          ih (N + 1) (s.set N ((P.getD N []).findIdx (fun x => x == e)))
            (by omega) hs2
        refine ⟨by rw [i1, List.length_set], ?_, ?_, ?_⟩
        · intro K hK
          have hKN : K ≠ N := by
            rcases hK with hK | hK
            · omega
            · omega
          have hpres := i2 K (by
            rcases hK with hK | hK
            · left
              omega
            · right
              exact hK)
          rw [hpres, List.getD_eq_getElem?_getD,
            List.getElem?_set_ne (fun hc => hKN hc.symm),
            ← List.getD_eq_getElem?_getD]
        · intro htrue K hNK hK hKm
          by_cases hKN : K = N
          · subst hKN
            have hpres := i2 K (Or.inl (by omega))
            rw [hpres, List.getD_eq_getElem?_getD,
              List.getElem?_set_self (by rw [hs]; exact hK)]
            constructor
            · exact hflt
            · simp only [Option.getD_some]
              have hp := @List.findIdx_getElem Entity (fun x => x == e)
                (P.getD K []) hflt
              rw [List.getD_eq_getElem?_getD, List.getElem?_eq_getElem hflt]
              simpa using hp
          · exact i3 htrue K (by omega) hK hKm
        · rw [i4]
          constructor
          · intro hgt K hNK hK hKm
            by_cases hKN : K = N
            · subst hKN
              have hp := @List.findIdx_getElem Entity (fun x => x == e)
                (P.getD K []) hflt
              have hmem := List.getElem_mem hflt
              have hval : (P.getD K []).get
                  ⟨(P.getD K []).findIdx (fun x => x == e), hflt⟩ = e := by
                simpa using hp
              rw [← hval]
              simp
            · exact hgt K (by omega) hK hKm
          · intro hall K hNK hK hKm
            exact hall K (by omega) hK hKm

/-- Helper: `check_iterators_valid` from component `N` on holds exactly
when every later component iterator is off its end and agrees with
component 0's entity. -/
theorem checkValidGo_spec (P : List (List Entity)) (s : List Nat) :
    ∀ rem N, N + rem = P.length →
      (checkValidGo P s rem N = true ↔
        ∀ K, N ≤ K → K < P.length →
          s.getD K 0 ≠ (P.getD K []).length ∧ entAt P K s = entAt P 0 s) := by
  intro rem
  induction rem with
  | zero =>
    intro N hlen
    rw [checkValidGo]
    constructor
    · intro _ K h1 h2
      omega
    · intro _
      rfl
  | succ rem ih =>
    intro N hlen
    rw [checkValidGo]
    by_cases hend : s.getD N 0 = (P.getD N []).length
    · rw [if_pos (by simpa using hend)]
      constructor
      · intro hcontra
        cases hcontra
      · intro hall
        exfalso
        exact (hall N (Nat.le_refl N) (by omega)).1 hend
    · rw [if_neg (by simpa using hend)]
      by_cases hent : entAt P N s = entAt P 0 s
      · rw [if_pos (by simpa using hent)]
        rw [ih (N + 1) (by omega)]
        constructor
        · intro hgt K hNK hK
          rcases Nat.eq_or_lt_of_le hNK with rfl | hlt2
          · exact ⟨hend, hent⟩
          · exact hgt K (by omega) hK
        · intro hall K hNK hK
          exact hall K (by omega) hK
      · rw [if_neg (by simpa using hent)]
        constructor
        · intro hcontra
          cases hcontra
        · intro hall
          exfalso
          exact hent (hall N (Nat.le_refl N) (by omega)).2

/-- Helper: an aligned state's entity lies in every pool. -/
theorem YState_good (P : List (List Entity)) (m j : Nat) (s : List Nat)
    (hY : YState P m j s) : goodAt P m j := by
  intro N hN
  obtain ⟨_, _, _, h4⟩ := hY
  obtain ⟨hlt, heq⟩ := h4 N hN
  rw [← heq]
  exact getD_mem_of_lt _ _ _ hlt

/-- Helper: `check_after_advance` scans the master forward to the first
index whose entity lies in every pool, producing an aligned state, or
reaches the master's end when no such index remains. -/
theorem checkAfterAdvance_spec (P : List (List Entity)) (m : Nat)
    (hm : m < P.length) :
    ∀ fuel j s, s.length = P.length → s.getD m 0 = j →
      j ≤ (P.getD m []).length → (P.getD m []).length - j < fuel →
      (∃ j2, j ≤ j2 ∧ j2 < (P.getD m []).length ∧
        (∀ t, j ≤ t → t < j2 → ¬goodAt P m t) ∧
        YState P m j2 (checkAfterAdvanceFuel P m fuel s)) ∨
      ((∀ t, j ≤ t → t < (P.getD m []).length → ¬goodAt P m t) ∧
        (checkAfterAdvanceFuel P m fuel s).getD m 0 = (P.getD m []).length ∧
        (checkAfterAdvanceFuel P m fuel s).length = P.length) := by
  intro fuel
  induction fuel with
  | zero =>
    intro j s _ _ _ hf
    omega
  | succ fuel ih =>
    intro j s hslen hsm hjle hf
    rw [checkAfterAdvanceFuel]
    by_cases hend : isEnd P m s = true
    · rw [if_pos hend]
      right
      have hj : j = (P.getD m []).length := by
        unfold isEnd at hend
        simp only [beq_iff_eq] at hend
        omega
      refine ⟨?_, ?_, hslen⟩
      · intro t h1 h2
        omega
      · rw [hsm, hj]
    · rw [if_neg hend]
      have hjlt : j < (P.getD m []).length := by
        unfold isEnd at hend
        simp only [beq_iff_eq] at hend
        omega
      dsimp only
      have hent : entAt P m s = (P.getD m []).getD j 0 := by
        unfold entAt
        rw [hsm]
      obtain ⟨s1, s2p, s3, s4⟩ :=
        setupGo_spec P m (entAt P m s) P.length 0 s (by omega) hslen
      by_cases hsu : (setupGo P m (entAt P m s) P.length 0 s).1 = true
      · rw [if_pos hsu]
        left
        have hmaster : (setupGo P m (entAt P m s) P.length 0 s).2.getD m 0 = j := by
          rw [s2p m (Or.inr rfl), hsm]
        refine ⟨j, Nat.le_refl j, hjlt, by intro t h1 h2; omega, ?_⟩
        refine ⟨by rw [s1, hslen], hmaster, hjlt, ?_⟩
        intro N hN
        by_cases hNm : N = m
        · subst hNm
          rw [hmaster]
          exact ⟨hjlt, rfl⟩
        · have hKfact := s3 hsu N (Nat.zero_le _) hN hNm
          refine ⟨hKfact.1, ?_⟩
          rw [← hent]
          exact hKfact.2
      · rw [if_neg hsu]
        have hnotgood : ¬goodAt P m j := by
          intro hg
          apply hsu
          rw [s4]
          intro K _ hK hKm
          rw [hent]
          exact hg K hK
        have hs2len : ((setupGo P m (entAt P m s) P.length 0 s).2.map
            (fun x => x + 1)).length = P.length := by
          rw [List.length_map, s1, hslen]
        have hs2m : ((setupGo P m (entAt P m s) P.length 0 s).2.map
            (fun x => x + 1)).getD m 0 = j + 1 := by
          rw [getD_map_succ _ _ (by rw [s1, hslen]; exact hm),
            s2p m (Or.inr rfl), hsm]
        rcases ih (j + 1) _ hs2len hs2m (by omega) (by omega) with hleft | hright
        · obtain ⟨j2, hj2ge, hj2lt, hnog, hY⟩ := hleft
          left
          refine ⟨j2, by omega, hj2lt, ?_, hY⟩
          intro t h1 h2
          rcases Nat.eq_or_lt_of_le h1 with rfl | h3
          · exact hnotgood
          · exact hnog t (by omega) h2
        · obtain ⟨hnog, hmend, hlend⟩ := hright
          right
          refine ⟨?_, hmend, hlend⟩
          intro t h1 h2
          rcases Nat.eq_or_lt_of_le h1 with rfl | h3
          · exact hnotgood
          · exact hnog t (by omega) h2

/-- Helper: the fast path of `operator++`: when after advancing all
iterators in lockstep the state is still valid, it is the aligned state
of the next master index. -/
theorem viewValid_step (P : List (List Entity)) (m j : Nat) (s : List Nat)
    (hm : m < P.length) (hY : YState P m j s)
    (hcv : checkValidGo P (s.map (fun x => x + 1)) P.length 0 = true) :
    j + 1 < (P.getD m []).length ∧
    YState P m (j + 1) (s.map (fun x => x + 1)) := by
  obtain ⟨hlen, hmas, hjlt, hpos⟩ := hY
  have hchar := (checkValidGo_spec P (s.map (fun x => x + 1)) P.length 0
    (by omega)).mp hcv
  have hlen2 : (s.map (fun x => x + 1)).length = P.length := by
    rw [List.length_map, hlen]
  have hgd : ∀ K, K < P.length →
      (s.map (fun x => x + 1)).getD K 0 = s.getD K 0 + 1 := by
    intro K hK
    exact getD_map_succ s K (by rw [hlen]; exact hK)
  have hm2 : (s.map (fun x => x + 1)).getD m 0 = j + 1 := by
    rw [hgd m hm, hmas]
  have hmlt : j + 1 < (P.getD m []).length := by
    have hne := (hchar m (Nat.zero_le _) hm).1
    rw [hm2] at hne
    omega
  refine ⟨hmlt, hlen2, hm2, hmlt, ?_⟩
  intro N hN
  have hK := hchar N (Nat.zero_le _) hN
  have hbound : s.getD N 0 < (P.getD N []).length := (hpos N hN).1
  have hposN : (s.map (fun x => x + 1)).getD N 0 = s.getD N 0 + 1 := hgd N hN
  constructor
  · have hKne := hK.1
    rw [hposN] at hKne ⊢
    omega
  · have hNent := hK.2
    have hment := (hchar m (Nat.zero_le _) hm).2
    unfold entAt at hNent hment
    rw [hm2] at hment
    rw [hNent]
    exact hment.symm

/-- Helper: dropping master indices whose entity misses some pool does
not change the filtered tail. -/
theorem filter_drop_skip (P : List (List Entity)) (m : Nat) :
    ∀ a b, a ≤ b → b ≤ (P.getD m []).length →
      (∀ t, a ≤ t → t < b → ¬goodAt P m t) →
      ((P.getD m []).drop a).filter (fun e => P.all (fun L => L.contains e)) =
      ((P.getD m []).drop b).filter (fun e => P.all (fun L => L.contains e)) := by
  suffices H : ∀ d a b, b - a ≤ d → a ≤ b → b ≤ (P.getD m []).length →
      (∀ t, a ≤ t → t < b → ¬goodAt P m t) →
      ((P.getD m []).drop a).filter (fun e => P.all (fun L => L.contains e)) =
      ((P.getD m []).drop b).filter (fun e => P.all (fun L => L.contains e)) by
    intro a b h1 h2 h3
    exact H (b - a) a b (Nat.le_refl _) h1 h2 h3
  intro d
  induction d with
  | zero =>
    intro a b hd h1 _ _
    have hab : a = b := by omega
    rw [hab]
  | succ d ihd =>
    intro a b hd h1 h2 hng
    rcases Nat.eq_or_lt_of_le h1 with rfl | hlt
    · rfl
    · have halt : a < (P.getD m []).length := by omega
      have hdrop : (P.getD m []).drop a =
          (P.getD m []).getD a 0 :: (P.getD m []).drop (a + 1) := by
        rw [List.drop_eq_getElem_cons halt]
        congr 1
        exact (List.getD_eq_getElem _ _ halt).symm
      rw [hdrop, List.filter_cons]
      have hpred : (P.all fun L => L.contains ((P.getD m []).getD a 0)) = false := by
        have hng0 := hng a (Nat.le_refl _) hlt
        cases hb : (P.all fun L => L.contains ((P.getD m []).getD a 0))
        · rfl
        · exfalso
          apply hng0
          intro N hN
          exact (allPools_iff P _).mp hb N hN
      rw [if_neg (fun hc => Bool.false_ne_true (hpred.symm.trans hc))]
      exact ihd (a + 1) b (by omega) (by omega) h2
        (fun t ht1 ht2 => hng t (by omega) ht2)

/-- Helper: iterating from an aligned state yields the master pool's
remaining entities that lie in every pool, in master order. -/
theorem viewCollect_spec (P : List (List Entity)) (m : Nat) (hm : m < P.length) :
    ∀ fuel j s, (P.getD m []).length - j < fuel → YState P m j s →
      viewCollectFuel P m fuel s =
        ((P.getD m []).drop j).filter (fun e => P.all (fun L => L.contains e)) := by
  intro fuel
  induction fuel with
  | zero =>
    intro j s hf hY
    omega
  | succ fuel ih =>
    intro j s hf hY
    obtain ⟨hlen, hmas, hjlt, hpos⟩ := hY
    rw [viewCollectFuel]
    have hnend : ¬(isEnd P m s = true) := by
      unfold isEnd
      simp only [beq_iff_eq, hmas]
      omega
    rw [if_neg hnend]
    have hyield : entAt P 0 s = (P.getD m []).getD j 0 := by
      unfold entAt
      exact (hpos 0 (by omega)).2
    have hdropeq : (P.getD m []).drop j =
        (P.getD m []).getD j 0 :: (P.getD m []).drop (j + 1) := by
      rw [List.drop_eq_getElem_cons hjlt]
      congr 1
      exact (List.getD_eq_getElem _ _ hjlt).symm
    have hgood : goodAt P m j := YState_good P m j s ⟨hlen, hmas, hjlt, hpos⟩
    have hpred : (P.all fun L => L.contains ((P.getD m []).getD j 0)) = true := by
      rw [allPools_iff]
      exact hgood
    rw [hdropeq, List.filter_cons, if_pos hpred, hyield]
    congr 1
    unfold viewNext
    by_cases hcv : checkValidGo P (s.map (fun x => x + 1)) P.length 0 = true
    · rw [if_pos hcv]
      obtain ⟨hjlt2, hY2⟩ :=
        viewValid_step P m j s hm ⟨hlen, hmas, hjlt, hpos⟩ hcv
      exact ih (j + 1) _ (by omega) hY2
    · rw [if_neg hcv]
      have hs2len : (s.map (fun x => x + 1)).length = P.length := by
        rw [List.length_map, hlen]
      have hs2m : (s.map (fun x => x + 1)).getD m 0 = j + 1 := by
        rw [getD_map_succ s m (by rw [hlen]; exact hm), hmas]
      rcases checkAfterAdvance_spec P m hm ((P.getD m []).length + 1) (j + 1) _
          hs2len hs2m (by omega) (by omega) with hleft | hright
      · obtain ⟨j2, hge, hlt2, hnog, hY2⟩ := hleft
        rw [ih j2 _ (by omega) hY2]
        exact (filter_drop_skip P m (j + 1) j2 hge (Nat.le_of_lt hlt2) hnog).symm
      · obtain ⟨hnog, hmend, hlend⟩ := hright
        have hend2 : viewCollectFuel P m fuel
            (checkAfterAdvanceFuel P m ((P.getD m []).length + 1)
              (s.map (fun x => x + 1))) = [] := by
          cases fuel with
          | zero => rw [viewCollectFuel]
          | succ fuel2 =>
            rw [viewCollectFuel]
            rw [if_pos (by unfold isEnd; rw [hmend]; simp)]
        rw [hend2,
          filter_drop_skip P m (j + 1) (P.getD m []).length (by omega)
            (Nat.le_refl _) hnog,
          List.drop_length, List.filter_nil]

/-- Helper: iterating the view from `begin()` to `end()` yields exactly
the master pool's entities that lie in every pool, in master order. -/
theorem viewEntities_eq_filter (P : List (List Entity)) (hne : P ≠ []) :
    viewEntities P =
      (P.getD (viewMaster P) []).filter (fun e => P.all (fun L => L.contains e)) := by
  obtain ⟨hm, _⟩ := viewMaster_spec P hne
  unfold viewEntities viewBegin
  have hilen : (List.replicate P.length (0 : Nat)).length = P.length :=
    List.length_replicate _ _
  have him : (List.replicate P.length (0 : Nat)).getD (viewMaster P) 0 = 0 := by
    rw [List.getD_eq_getElem?_getD, List.getElem?_replicate, if_pos hm]
    rfl
  rcases checkAfterAdvance_spec P (viewMaster P) hm
      ((P.getD (viewMaster P) []).length + 1) 0 _ hilen him (Nat.zero_le _)
      (by omega) with hleft | hright
  · obtain ⟨j2, _, hlt2, hnog, hY⟩ := hleft
    rw [viewCollect_spec P (viewMaster P) hm _ j2 _ (by omega) hY]
    have hskip := filter_drop_skip P (viewMaster P) 0 j2 (Nat.zero_le _)
      (Nat.le_of_lt hlt2) (fun t h1 h2 => hnog t h1 h2)
    rw [List.drop_zero] at hskip
    exact hskip.symm
  · obtain ⟨hnog, hmend, hlend⟩ := hright
    rw [viewCollectFuel, if_pos (by unfold isEnd; rw [hmend]; simp)]
    have hskip := filter_drop_skip P (viewMaster P) 0
      ((P.getD (viewMaster P) []).length) (Nat.zero_le _) (Nat.le_refl _)
      (fun t h1 h2 => hnog t h1 h2)
    rw [List.drop_zero, List.drop_length, List.filter_nil] at hskip
    exact hskip.symm

/-- **C2.** A view over pools `P` (one captured range per requested
component type and variant; an absent pool is the empty default range)
iterates, between `begin()` and `end()`, exactly the set of entities
present in every captured pool, each entity at most once (pools hold
each entity at most once), and the iteration is driven by a pool of
minimal size; if any requested pool is absent (empty), the iteration
yields nothing. -/
theorem view_iterates_intersection (P : List (List Entity))
    (hne : P ≠ []) (hnd : ∀ L ∈ P, L.Nodup) :
    (∀ e, e ∈ viewEntities P ↔ ∀ L ∈ P, e ∈ L) ∧
    (viewEntities P).Nodup ∧
    (∀ L ∈ P, (P.getD (viewMaster P) []).length ≤ L.length) ∧
    ([] ∈ P → viewEntities P = []) := by
  obtain ⟨hm, hmin⟩ := viewMaster_spec P hne
  have heq := viewEntities_eq_filter P hne
  have hmem : ∀ e, e ∈ viewEntities P ↔ ∀ L ∈ P, e ∈ L := by
    intro e
    rw [heq, List.mem_filter]
    constructor
    · rintro ⟨_, hall⟩ L hL
      rw [List.all_eq_true] at hall
      have := hall L hL
      simpa using this
    · intro hall
      refine ⟨hall _ (getD_mem_of_lt P (viewMaster P) [] hm), ?_⟩
      rw [List.all_eq_true]
      intro L hL
      simpa using hall L hL
  refine ⟨hmem, ?_, hmin, ?_⟩
  · rw [heq]
    exact List.Nodup.filter _ (hnd _ (getD_mem_of_lt P (viewMaster P) [] hm))
  · intro hnil
    rw [List.eq_nil_iff_forall_not_mem]
    intro e he
    have := (hmem e).mp he [] hnil
    simp at this

/-- Witness for the view theorem at concrete pools: over pools
`[1, 2]` and `[2, 3]` the view yields exactly `[2]`. -/
theorem view_iterates_intersection_witness :
    (([[1, 2], [2, 3]] : List (List Entity)) ≠ [] ∧
      ∀ L ∈ ([[1, 2], [2, 3]] : List (List Entity)), L.Nodup) ∧
    (∀ e, e ∈ viewEntities [[1, 2], [2, 3]] ↔
      ∀ L ∈ ([[1, 2], [2, 3]] : List (List Entity)), e ∈ L) ∧
    viewEntities [[1, 2], [2, 3]] = [2] :=
  ⟨⟨by decide, by decide⟩,
    (view_iterates_intersection [[1, 2], [2, 3]] (by decide) (by decide)).1,
    by decide⟩

end Ecstl
